import Mathlib

/-!
Verification development for the rc-field-form form-state engine.

The definitions below are a shallow embedding of the TypeScript sources:
`useForm.ts` (the `FormStore` class), `Field.tsx` (the `Field` entity),
and `validateUtil.ts` (the rule engine).  Promises are modelled by making
settlement explicit: an asynchronous task is identified by a numeric id
(object identity of the promise), a settled promise is a `Settled` value,
and functions that in the source run inside `.then`/`.catch` handlers
become pure functions of the settled payloads.  The structural store
helpers (`getValue`, `setValue`, `setValues`, `cloneByNamePathList`,
`matchNamePath`, `containsNamePath`) live in `utils/valueUtil.ts`, which
is not part of the analysed sources; they are modelled from the spec
(section 4.1) and are marked as such.
-/

set_option autoImplicit false

namespace FieldForm

/-- Path segment: a JavaScript name-path segment is a string or a number. -/
inductive Seg where
  | str (s : String)
  | num (n : Nat)
deriving DecidableEq, Repr

/-- A name path: an ordered sequence of segments addressing a store slot. -/
abbrev NamePath := List Seg

/-- Nested store value.  `undef` models JavaScript `undefined`; `leaf`
models any primitive value (opaque to the store operations); `node`
models an object or array, as an ordered association list of entries. -/
inductive StoreVal where
  | undef
  | leaf (s : String)
  | node (entries : List (Seg × StoreVal))

mutual

/-- Boolean structural equality on store values. -/
def StoreVal.beq : StoreVal → StoreVal → Bool
  | .undef, .undef => true
  | .leaf a, .leaf b => a == b
  | .node a, .node b => StoreVal.beqEntries a b
  | _, _ => false

/-- Boolean structural equality on entry lists. -/
def StoreVal.beqEntries : List (Seg × StoreVal) → List (Seg × StoreVal) → Bool
  | [], [] => true
  | e1 :: r1, e2 :: r2 =>
    (e1.1 == e2.1) && StoreVal.beq e1.2 e2.2 && StoreVal.beqEntries r1 r2
  | _, _ => false

end

mutual

theorem StoreVal.beq_iff : ∀ a b : StoreVal, StoreVal.beq a b = true ↔ a = b
  | .undef, .undef => by simp [StoreVal.beq]
  | .undef, .leaf _ => by simp [StoreVal.beq]
  | .undef, .node _ => by simp [StoreVal.beq]
  | .leaf _, .undef => by simp [StoreVal.beq]
  | .leaf a, .leaf b => by simp [StoreVal.beq]
  | .leaf _, .node _ => by simp [StoreVal.beq]
  | .node _, .undef => by simp [StoreVal.beq]
  | .node _, .leaf _ => by simp [StoreVal.beq]
  | .node a, .node b => by
    simp [StoreVal.beq, StoreVal.beqEntries_iff a b]

theorem StoreVal.beqEntries_iff :
    ∀ a b : List (Seg × StoreVal), StoreVal.beqEntries a b = true ↔ a = b
  | [], [] => by simp [StoreVal.beqEntries]
  | [], _ :: _ => by simp [StoreVal.beqEntries]
  | _ :: _, [] => by simp [StoreVal.beqEntries]
  | e1 :: r1, e2 :: r2 => by
    simp only [StoreVal.beqEntries, Bool.and_eq_true, beq_iff_eq,
      StoreVal.beq_iff e1.2 e2.2, StoreVal.beqEntries_iff r1 r2, List.cons.injEq]
    constructor
    · rintro ⟨⟨h1, h2⟩, h3⟩
      exact ⟨Prod.ext h1 h2, h3⟩
    · rintro ⟨h12, h3⟩
      rw [h12]
      exact ⟨⟨rfl, rfl⟩, h3⟩

end

instance : DecidableEq StoreVal :=
  fun a b => decidable_of_iff (StoreVal.beq a b = true) (StoreVal.beq_iff a b)

/-- Entries of a container value; primitives have no entries. -/
def childEntries : StoreVal → List (Seg × StoreVal)
  | .node es => es
  | _ => []

/-- Look up the entry with key `k` in an association list. -/
def getEntry (es : List (Seg × StoreVal)) (k : Seg) : Option StoreVal :=
  match es with
  | [] => none
  | (k2, v) :: rest => if k2 = k then some v else getEntry rest k

/-- Replace the entry with key `k` (or append it) in an association list. -/
def setEntry (es : List (Seg × StoreVal)) (k : Seg) (v : StoreVal) :
    List (Seg × StoreVal) :=
  match es with
  | [] => [(k, v)]
  | (k2, w) :: rest => if k2 = k then (k, v) :: rest else (k2, w) :: setEntry rest k v

/-- Remove every entry with key `k` from an association list. -/
def removeEntry (es : List (Seg × StoreVal)) (k : Seg) : List (Seg × StoreVal) :=
  es.filter (fun e => decide (e.1 ≠ k))

/-- Modelled from the spec (section 4.1, `valueUtil.ts` is not among the
sources): `get(store, path)` returns the value at `path`, or `undefined`
if absent at any segment. -/
def getValue (s : StoreVal) (p : NamePath) : StoreVal :=
  match p with
  | [] => s
  | k :: rest =>
    match s with
    | .node es =>
      match getEntry es k with
      | some v => getValue v rest
      | none => .undef
    | _ => (.undef)

/-- Modelled from the spec (section 4.1): `set(store, path, value,
deleteIfUndefined?)` returns a new store with `value` installed at
`path`, creating intermediate containers as needed; with the flag set
and an `undefined` value, the leaf entry is removed entirely. -/
def setValue (s : StoreVal) (p : NamePath) (v : StoreVal) (removeIfUndef : Bool) :
    StoreVal :=
  match p with
  | [] => v
  | k :: rest =>
    match rest with
    | [] =>
      if removeIfUndef = true ∧ v = .undef then .node (removeEntry (childEntries s) k)
      else .node (setEntry (childEntries s) k v)
    | _ :: _ =>
      let child := match getEntry (childEntries s) k with
        | some c => c
        | none => .node []
      .node (setEntry (childEntries s) k (setValue child rest v removeIfUndef))

/-- Whether a value is a container (object or array). -/
def isContainer : StoreVal → Bool
  | .node _ => true
  | _ => false

mutual

/-- Modelled from the spec (section 4.1): `setValues` immutably deep-merges
a source store into a target store; entries that are containers on both
sides are merged recursively, any other source entry wins. -/
def mergeValues (t : StoreVal) (s : StoreVal) : StoreVal :=
  match s with
  | .node ss => .node (mergeInto (childEntries t) ss)
  | _ => s

/-- Merge the source entries into the target entries, key by key. -/
def mergeInto (ts : List (Seg × StoreVal)) (ss : List (Seg × StoreVal)) :
    List (Seg × StoreVal) :=
  match ss with
  | [] => ts
  | (k, sv) :: rest =>
    let newVal :=
      match getEntry ts k with
      | some pv => if isContainer pv ∧ isContainer sv then mergeValues pv sv else sv
      | none => sv
    mergeInto (setEntry ts k newVal) rest

end

/-- Modelled from the spec (section 4.1): `matchNamePath` is segment-wise
path equality. -/
def matchNamePath (a b : NamePath) : Bool := decide (a = b)

/-- Modelled from the spec (section 4.1): `containsNamePath(list, path)`
tests whether `path` occurs in `list` (by `matchNamePath`). -/
def containsNamePath (l : List NamePath) (p : NamePath) : Bool :=
  l.any (fun q => matchNamePath q p)

/-- Modelled from the spec (section 4.1): `cloneByNamePathList` extracts a
minimal sub-store containing only the given paths. -/
def cloneByNamePathList (s : StoreVal) (paths : List NamePath) : StoreVal :=
  paths.foldl (fun acc p => setValue acc p (getValue s p) false) (.node [])

/-- `pathStarts p q` holds when `p` is an initial segment sequence of `q`. -/
def pathStarts : NamePath → NamePath → Bool
  | [], _ => true
  | _ :: _, [] => false
  | a :: ps, b :: qs => decide (a = b) && pathStarts ps qs

/-- Two paths are independent when neither is an initial segment of the
other; writes at one cannot affect reads at the other. -/
def pathsIndependent (p q : NamePath) : Prop :=
  pathStarts p q = false ∧ pathStarts q p = false

instance (p q : NamePath) : Decidable (pathsIndependent p q) := by
  unfold pathsIndependent
  infer_instance

/-- Keys of a node are pairwise distinct at the top level. -/
def topKeysNodup : StoreVal → Prop
  | .node es => (es.map Prod.fst).Nodup
  | _ => True

-- ======================= rule engine =======================

/-- A rule as the scheduler in `validateRules` observes it: its
`warningOnly` flag and the message list its evaluation by `validateRule`
produces (empty means the rule passes).  Rule evaluation is asynchronous
in the source; its verdict is modelled as data on the rule. -/
structure RuleData where
  warningOnly : Bool
  errors : List String
deriving DecidableEq, Repr

/-- A rule after `validateRules` has annotated it with its original
position (`ruleIndex`). -/
structure FilledRule where
  warningOnly : Bool
  errors : List String
  ruleIndex : Nat
deriving DecidableEq, Repr

/-- The annotation pass of `validateRules`: each rule is tagged with its
index in the input list (generalised over the starting index). -/
def annotateFrom : Nat → List RuleData → List FilledRule
  | _, [] => []
  | i, r :: rest => ⟨r.warningOnly, r.errors, i⟩ :: annotateFrom (i + 1) rest

/-- `rules.map((currentRule, ruleIndex) => ({ ...currentRule, ruleIndex }))`. -/
def annotate (rs : List RuleData) : List FilledRule := annotateFrom 0 rs

/-- The comparator passed to `filledRules.sort`: rules with equal
`warningOnly` compare by original index; otherwise the warning-only rule
sorts after the error rule. -/
def ruleCmp (a b : FilledRule) : Int :=
  if a.warningOnly = b.warningOnly then (a.ruleIndex : Int) - b.ruleIndex
  else if a.warningOnly = true then 1 else -1

/-- `a` may precede `b` under the comparator. -/
def ruleLe (a b : FilledRule) : Bool := decide (ruleCmp a b ≤ 0)

/-- Insertion step of a stable comparison sort. -/
def insertSorted (x : FilledRule) : List FilledRule → List FilledRule
  | [] => [x]
  | y :: ys => if ruleLe x y then x :: y :: ys else y :: insertSorted x ys

/-- Model of `Array.prototype.sort(ruleCmp)` (stable per ES2019), as a
stable insertion sort.  Distinct `ruleIndex` values make the comparator a
strict total order, so every correct sort produces this same list. -/
def sortRules (l : List FilledRule) : List FilledRule := l.foldr insertSorted []

/-- `RuleError`: the result of one failed rule evaluation. -/
structure RuleError where
  errors : List String
  rule : FilledRule
deriving DecidableEq, Repr

/-- A settled promise: either fulfilled or rejected, with its payload. -/
inductive Settled (A : Type) where
  | resolved (v : A)
  | rejected (v : A)
deriving DecidableEq, Repr

/-- The serial branch of `validateRules` (`validateFirst === true`): rules
are awaited one at a time; the first rule with a non-empty message list
rejects the summary promise and stops the loop.  The first component
records which rules were actually evaluated. -/
def serialValidate : List FilledRule → List FilledRule × Settled (List RuleError)
  | [] => ([], .resolved [])
  | r :: rest =>
    if r.errors = [] then
      let p := serialValidate rest
      (r :: p.1, p.2)
    else ([r], .rejected [⟨r.errors, r⟩])

/-- `finishOnAllFailed`: `Promise.all` keeps input order, so the settled
value is one `RuleError` per rule, in rule order. -/
def collectAll (rs : List FilledRule) : List RuleError :=
  rs.map (fun r => ⟨r.errors, r⟩)

/-- `finishOnFirstFailed`: the first rule, in completion order, with a
non-empty error list wins; if all complete clean the result is empty.
`order` lists rule positions by completion time. -/
def firstFailedByOrder (rs : List FilledRule) (order : List Nat) : List RuleError :=
  match (order.filterMap (fun i => rs[i]?)).find? (fun r => decide (r.errors ≠ [])) with
  | some r => [⟨r.errors, r⟩]
  | none => []

/-- The `validateFirst` option: `true`, `'parallel'`, or falsy. -/
inductive ValidateFirstMode where
  | serial
  | parallelFirst
  | off
deriving DecidableEq, Repr

/-- Settlement of the summary promise returned by `validateRules`.  In the
two parallel branches the settled value of
`finishOnFirstFailed`/`finishOnAllFailed` is unconditionally turned into
a rejection (`.then(errors => Promise.reject(errors))`).  `none` means
the promise never settles (`finishOnFirstFailed` with no rule promises
never calls `resolve`). -/
def validateRulesOutcome (rules : List RuleData) (vf : ValidateFirstMode)
    (order : List Nat) : Option (Settled (List RuleError)) :=
  let filledRules := sortRules (annotate rules)
  match vf with
  | .serial => some (serialValidate filledRules).2
  | .parallelFirst =>
    if filledRules = [] then none
    else some (.rejected (firstFailedByOrder filledRules order))
  | .off => some (.rejected (collectAll filledRules))

/-- Per-field result produced by `FormStore.validateFields`. -/
structure FieldValidateResult where
  name : NamePath
  errors : List String
  warnings : List String
deriving DecidableEq, Repr

/-- Error messages of the non-warning-only rules, in rule order. -/
def mergedErrorsOf (ruleErrors : List RuleError) : List String :=
  ((ruleErrors.filter (fun e => !e.rule.warningOnly)).map (fun e => e.errors)).flatten

/-- Error messages of the warning-only rules, in rule order. -/
def mergedWarningsOf (ruleErrors : List RuleError) : List String :=
  ((ruleErrors.filter (fun e => e.rule.warningOnly)).map (fun e => e.errors)).flatten

/-- The per-field promise wrapper in `FormStore.validateFields` (lines
1049-1077): fulfilment of the rule summary maps to a clean result; a
rejection is partitioned into errors and warnings and re-raised only
when some non-warning message remains. -/
def fieldResultOf (name : NamePath) (s : Settled (List RuleError)) :
    Settled FieldValidateResult :=
  match s with
  | .resolved _ => .resolved ⟨name, [], []⟩
  | .rejected ruleErrors =>
    if mergedErrorsOf ruleErrors ≠ [] then
      .rejected ⟨name, mergedErrorsOf ruleErrors, mergedWarningsOf ruleErrors⟩
    else .resolved ⟨name, mergedErrorsOf ruleErrors, mergedWarningsOf ruleErrors⟩

-- ======================= validateRule internals =======================

/-- Behaviour of a user-supplied validator function: it may throw
synchronously, return a promise that resolves, or return a promise that
rejects with an optional message. -/
inductive ValidatorBehavior where
  | throws
  | resolves
  | rejects (msg : Option String)
deriving DecidableEq, Repr

/-- The sentinel injected by the try/catch wrapper in `validateRule`. -/
def CODE_LOGIC_ERROR : String := "CODE_LOGIC_ERROR"

/-- Combined effect of the two validator wrappers: the promise/callback
adapter installed by `validateRules` and the try/catch wrapper installed
by `validateRule`, as observed through `async-validator` (an external
library, modelled by its documented behaviour: the messages a custom
validator yields become the rule messages).  A synchronous throw is
caught and becomes a rejection with the `CODE_LOGIC_ERROR` sentinel; a
promise rejection reaches the callback as `err || CHR32`. -/
def wrappedValidatorMessages : ValidatorBehavior → List String
  | .throws => [CODE_LOGIC_ERROR]
  | .resolves => []
  | .rejects m => [m.getD " "]

/-- Opening template brace, written by code point to keep it out of
string literals. -/
def lbrace : Char := Char.ofNat 123

/-- Closing template brace, written by code point. -/
def rbrace : Char := Char.ofNat 125

/-- JavaScript word character, as matched by the template regex. -/
def isWordChar (c : Char) : Bool := c.isAlphanum || c = '_'

/-- Scanner behind `replaceMessage`: replaces every dollar-brace-delimited
word by its `kv` entry (an absent entry becomes the string rendering of
`undefined`, as JavaScript coerces it).  The fuel argument only bounds
the scan; one unit is spent per step and every step consumes at least
one character, so `length` fuel is always enough. -/
def replaceMessageAux (kv : String → Option String) : Nat → List Char → List Char
  | 0, l => l
  | _ + 1, [] => []
  | fuel + 1, c :: rest =>
    if c = '$' then
      match rest with
      | [] => [c]
      | c2 :: rest2 =>
        if c2 = lbrace then
          let key := rest2.takeWhile isWordChar
          match rest2.dropWhile isWordChar with
          | [] => c :: c2 :: replaceMessageAux kv fuel rest2
          | c3 :: tail =>
            if c3 = rbrace ∧ key ≠ [] then
              ((kv (String.mk key)).getD "undefined").toList ++
                replaceMessageAux kv fuel tail
            else c :: c2 :: replaceMessageAux kv fuel rest2
        else c :: replaceMessageAux kv fuel rest
    else c :: replaceMessageAux kv fuel rest

/-- `replaceMessage(template, kv)`: fill dollar-brace placeholders from
the variable table. -/
def replaceMessage (template : String) (kv : String → Option String) : String :=
  String.mk (replaceMessageAux kv template.length template.toList)

/-- One rule as `validateRule` evaluates it.  `staticErrors` stands for
the verdict of `async-validator` (an external npm library) on the
declarative descriptors of a rule without a custom validator; with a
custom validator the verdict is the wrapped validator outcome.  The
recursive `defaultField` array sub-validation, reachable only when the
main result is empty, is outside the scope of the claims. -/
structure RuleEvalModel where
  warningOnly : Bool
  validator : Option ValidatorBehavior
  staticErrors : List String
deriving DecidableEq, Repr

/-- The message list `validateRule` returns for one rule: the raw
messages from `async-validator`, with the `CODE_LOGIC_ERROR` sentinel
replaced by the default entry of the merged message table, then template
variables filled in. -/
def validateRuleMessages (defaultMsg : String) (kv : String → Option String)
    (rule : RuleEvalModel) : List String :=
  let raw : List String :=
    match rule.validator with
    | some vb => wrappedValidatorMessages vb
    | none => rule.staticErrors
  let merged := raw.map (fun m => if m = CODE_LOGIC_ERROR then defaultMsg else m)
  merged.map (fun m => replaceMessage m kv)

-- ======================= Field entity =======================

/-- The mutable per-field state of a `Field` component: touched and dirty
flags, the identity of the in-flight validation root promise, and the
current error and warning lists. -/
structure FieldState where
  touched : Bool
  dirty : Bool
  validatePromise : Option Nat
  errors : List String
  warnings : List String
deriving DecidableEq, Repr

/-- A `FieldData` record as passed to `setFields`; an `Option` field is
`some` exactly when the corresponding key is present on the record. -/
structure FieldData where
  name : NamePath
  value : Option StoreVal
  touched : Option Bool
  validating : Option Bool
  errors : Option (List String)
  warnings : Option (List String)
  originRCField : Bool
deriving DecidableEq

/-- Origin of a `valueUpdate` mutation. -/
inductive UpdateSource where
  | internal
  | external
deriving DecidableEq, Repr

/-- The tagged union describing why the store changed. -/
inductive NotifyInfo where
  | valueUpdate (source : UpdateSource)
  | reset
  | setField (data : FieldData)
  | remove
  | dependenciesUpdate (relatedFields : List NamePath)
  | validateFinish
deriving DecidableEq

/-- The `shouldUpdate` prop: absent, a boolean, or a predicate of the
previous store, next store and change source. -/
inductive ShouldUpdate where
  | noneSU
  | boolSU (b : Bool)
  | fnSU (f : StoreVal → StoreVal → Option UpdateSource → Bool)

/-- JavaScript truthiness of the `shouldUpdate` prop. -/
def ShouldUpdate.truthy : ShouldUpdate → Bool
  | .noneSU => false
  | .boolSU b => b
  | .fnSU _ => true

/-- Whether `shouldUpdate` is literally `true`. -/
def ShouldUpdate.isTrue : ShouldUpdate → Bool
  | .boolSU true => true
  | _ => false

/-- The source metadata handed to a `shouldUpdate` function. -/
def sourceOf : NotifyInfo → Option UpdateSource
  | .valueUpdate src => some src
  | _ => none

/-- `requireUpdate` from `Field.tsx`: a function prop decides itself;
otherwise the default comparison is inequality of the value at the
field path between the previous and next store. -/
def requireUpdate (su : ShouldUpdate) (prev next prevValue nextValue : StoreVal)
    (info : NotifyInfo) : Bool :=
  match su with
  | .fnSU f => f prev next (sourceOf info)
  | _ => decide (prevValue ≠ nextValue)

/-- The props of a field that `onStoreChange` consults. -/
structure FieldProps where
  name : NamePath
  dependencies : List NamePath
  shouldUpdate : ShouldUpdate

/-- The UI reaction `onStoreChange` requests: none, a re-render, or the
reset path (clean state, `onReset` callback and node refresh). -/
inductive Reaction where
  | nothing
  | rerender
  | refreshReset
deriving DecidableEq, Repr

/-- The state written by the `reset` branch of `onStoreChange`. -/
def clearedFieldState : FieldState := ⟨false, false, none, [], []⟩

/-- The `setField` branch patch: apply the supplied partial field data
and mark the field dirty.  `fresh` is the identity of the resolved
promise allocated when `validating` is patched to `true`. -/
def applyFieldData (st : FieldState) (data : FieldData) (fresh : Nat) : FieldState :=
  let st1 := match data.touched with
    | some t => { st with touched := t }
    | none => st
  let st2 := match data.validating with
    | some v =>
      if data.originRCField = false then
        { st1 with validatePromise := if v then some fresh else none }
      else st1
    | none => st1
  let st3 := match data.errors with
    | some e => { st2 with errors := e }
    | none => st2
  let st4 := match data.warnings with
    | some w => { st3 with warnings := w }
    | none => st3
  { st4 with dirty := true }

/-- `Field.onStoreChange` (lines 253-387): the force-reaction block for
external full-store replacement runs first, then the branch selected by
the notification type, then the `shouldUpdate === true` fallback. -/
def onStoreChange (props : FieldProps) (st0 : FieldState) (prevStore : StoreVal)
    (namePathList : Option (List NamePath)) (info : NotifyInfo) (curStore : StoreVal)
    (fresh : Nat) : FieldState × Reaction :=
  let namePath := props.name
  let prevValue := getValue prevStore namePath
  let curValue := getValue curStore namePath
  let namePathMatch := match namePathList with
    | some l => containsNamePath l namePath
    | none => false
  let st := if info = .valueUpdate .external ∧ prevValue ≠ curValue then
      { st0 with
        touched := true
        dirty := true
        validatePromise := none
        errors := []
        warnings := [] }
    else st0
  let fallback : FieldState × Reaction :=
    if props.shouldUpdate.isTrue then (st, .rerender) else (st, .nothing)
  match info with
  | .reset =>
    if namePathList = none ∨ namePathMatch = true then (clearedFieldState, .refreshReset)
    else fallback
  | .remove =>
    if props.shouldUpdate.truthy then (st, .rerender) else fallback
  | .setField data =>
    if namePathMatch then (applyFieldData st data fresh, .rerender)
    else if props.shouldUpdate.truthy && decide (namePath = []) &&
        requireUpdate props.shouldUpdate prevStore curStore prevValue curValue info then
      (st, .rerender)
    else fallback
  | .dependenciesUpdate related =>
    if props.dependencies.any (fun d => containsNamePath related d) then (st, .rerender)
    else fallback
  | _ =>
    if namePathMatch ||
        ((decide (props.dependencies = []) || decide (namePath ≠ []) ||
            props.shouldUpdate.truthy) &&
          requireUpdate props.shouldUpdate prevStore curStore prevValue curValue info) then
      (st, .rerender)
    else fallback

/-- The synchronous tail of `Field.validateRules` (lines 455-464): the
new root promise becomes the current `validatePromise`, the field turns
dirty, and the error and warning lists are cleared while the validation
is in flight. -/
def fieldValidateStart (st : FieldState) (rootPromise : Nat) : FieldState :=
  { st with
    validatePromise := some rootPromise
    dirty := true
    errors := []
    warnings := [] }

/-- The settlement handler inside `Field.validateRules` (lines 427-451):
the settled rule errors are partitioned into errors and warnings and
written back only when the root promise is still the field current
`validatePromise`; a superseded settlement leaves the field unchanged. -/
def fieldValidateSettle (st : FieldState) (rootPromise : Nat)
    (ruleErrors : List RuleError) : FieldState :=
  if st.validatePromise = some rootPromise then
    { st with
      validatePromise := none
      errors := mergedErrorsOf ruleErrors
      warnings := mergedWarningsOf ruleErrors }
  else st

-- ======================= FormStore =======================

/-- A registered field entity as the `FormStore` observes it.  `id`
models JavaScript object identity (the registry and the cascade visited
set compare entities by identity); `dirty` is the `Field.dirty` flag
(set on touch, on validation, on `setField` and on external value
change). -/
structure FieldEnt where
  id : Nat
  name : NamePath
  dependencies : List NamePath
  dirty : Bool
  initialValue : StoreVal
  isListField : Bool
  preserve : Option Bool
deriving DecidableEq

/-- `Field.isFieldDirty` (lines 473-488): the dirty flag, or a
field-declared `initialValue`, or a form-level initial value at the
field path. -/
def isFieldDirty (initialValues : StoreVal) (f : FieldEnt) : Bool :=
  f.dirty || decide (f.initialValue ≠ .undef) ||
    decide (getValue initialValues f.name ≠ .undef)

/-- The `FormStore` state consulted by the operations under study.
Host-supplied callbacks are tracked by presence only. -/
structure FormState where
  store : StoreVal
  initialValues : StoreVal
  fieldEntities : List FieldEnt
  preserve : Option Bool
  subscribable : Bool
  hasOnValuesChange : Bool
  hasOnFieldsChange : Bool
  lastValidatePromise : Option Nat
deriving DecidableEq

/-- Observable side effects of a `FormStore` operation, in order. -/
inductive Effect where
  | notify (info : NotifyInfo) (paths : Option (List NamePath))
  | forceRootUpdate
  | watch (paths : List NamePath)
  | validateStart (paths : List NamePath)
  | valuesChange
  | fieldsChange (paths : List NamePath) (results : Option (List FieldValidateResult))
deriving DecidableEq

/-- `FormStore.notifyObservers`: under a subscribable form the
notification is broadcast to every registered field in registry order;
otherwise the root is force-re-rendered. -/
def notifyObservers (st : FormState) (paths : Option (List NamePath))
    (info : NotifyInfo) : List Effect :=
  if st.subscribable then [.notify info paths] else [.forceRootUpdate]

/-- Registered entities with a non-empty name (`getFieldEntities(true)`). -/
def pureFieldEntities (ents : List FieldEnt) : List FieldEnt :=
  ents.filter (fun f => decide (f.name ≠ []))

-- ======================= dependency cascade =======================

/-- Traversal state of `getDependencyChildrenFields`: the visited entity
identities (`children`) and the collected paths (`childrenFields`). -/
structure CascadeState where
  children : List Nat
  childrenFields : List NamePath
deriving DecidableEq, Repr

/-- Fields whose declared dependencies contain the trigger path, in
registry order (the dependency-to-fields map preserves insertion
order). -/
def dependentsOf (ents : List FieldEnt) (t : NamePath) : List FieldEnt :=
  ents.filter (fun f => containsNamePath f.dependencies t)

/-- One pass of the `fields.forEach` loop inside the `fillChildren`
closure of `FormStore.getDependencyChildrenFields` (lines 928-945),
with the pending dependent queue explicit: an unvisited dependent is
marked visited; if it passes `isFieldDirty` and has a non-empty name,
its path is collected and `dive` expands its own dependents before the
loop continues over the remaining queue. -/
def cascadeLoop (ents : List FieldEnt) (initialValues : StoreVal)
    (dive : NamePath → CascadeState → CascadeState) :
    List FieldEnt → CascadeState → CascadeState
  | [], st => st
  | f :: rest, st =>
    if f.id ∈ st.children then cascadeLoop ents initialValues dive rest st
    else if isFieldDirty initialValues f = true ∧ f.name ≠ [] then
      cascadeLoop ents initialValues dive rest
        (dive f.name ⟨st.children ++ [f.id], st.childrenFields ++ [f.name]⟩)
    else cascadeLoop ents initialValues dive rest
      ⟨st.children ++ [f.id], st.childrenFields⟩

/-- The `fillChildren` recursion, by remaining depth.  With the fuel
exhausted the expansion degenerates to the identity; the capacity
argument below shows `ents.length` fuel makes that branch unreachable,
so the model agrees with the unbounded source recursion: one fuel unit
is spent per expansion and every expansion first marks a previously
unvisited identity. -/
def fillChildren (ents : List FieldEnt) (initialValues : StoreVal) :
    Nat → List FieldEnt → CascadeState → CascadeState
  | 0 => cascadeLoop ents initialValues (fun _ st => st)
  | fuel2 + 1 => cascadeLoop ents initialValues
      (fun name st => fillChildren ents initialValues fuel2 (dependentsOf ents name) st)

/-- `FormStore.getDependencyChildrenFields(rootNamePath)`. -/
def getDependencyChildrenFields (st : FormState) (rootNamePath : NamePath) :
    List NamePath :=
  (fillChildren st.fieldEntities st.initialValues st.fieldEntities.length
    (dependentsOf st.fieldEntities rootNamePath) ⟨[], []⟩).childrenFields

/-- The dependency closure described by the code: a field is cascaded
into exactly when it is registered, depends on the trigger path or on
the path of an already cascaded field, passes `isFieldDirty`, and has a
non-empty name. -/
inductive Cascaded (ents : List FieldEnt) (initialValues : StoreVal)
    (root : NamePath) : FieldEnt → Prop where
  | base (f : FieldEnt) (hf : f ∈ ents)
      (hdep : containsNamePath f.dependencies root = true)
      (hdirty : isFieldDirty initialValues f = true) (hname : f.name ≠ []) :
      Cascaded ents initialValues root f
  | step (g f : FieldEnt) (hg : Cascaded ents initialValues root g) (hf : f ∈ ents)
      (hdep : containsNamePath f.dependencies g.name = true)
      (hdirty : isFieldDirty initialValues f = true) (hname : f.name ≠ []) :
      Cascaded ents initialValues root f

-- ======================= FormStore operations =======================

/-- `FormStore.triggerOnFieldsChange` invocation, recorded as an effect
with the changed paths and, when supplied, the per-field errors. -/
def triggerOnFieldsChange (paths : List NamePath)
    (results : Option (List FieldValidateResult)) : Effect :=
  .fieldsChange paths results

/-- `FormStore.triggerDependenciesUpdate`: collect the dependent fields,
schedule their validation when there are any, and broadcast
`dependenciesUpdate` with the trigger path in front. -/
def triggerDependenciesUpdate (st : FormState) (namePath : NamePath) :
    List NamePath × List Effect :=
  let childrenFields := getDependencyChildrenFields st namePath
  (childrenFields,
    (if childrenFields ≠ [] then [Effect.validateStart childrenFields] else []) ++
      notifyObservers st (some childrenFields)
        (.dependenciesUpdate (namePath :: childrenFields)))

/-- `FormStore.updateValue` (the `updateValue` dispatch): write the
value, broadcast `valueUpdate(internal)`, notify watchers, run the
dependency cascade, fire `onValuesChange` when registered, and finally
`triggerOnFieldsChange` with the updated path and its cascade. -/
def updateValue (st : FormState) (name : NamePath) (value : StoreVal) :
    FormState × List Effect :=
  let st1 := { st with store := setValue st.store name value false }
  let deps := triggerDependenciesUpdate st1 name
  (st1,
    notifyObservers st1 (some [name]) (.valueUpdate .internal) ++
      [Effect.watch [name]] ++ deps.2 ++
      (if st.hasOnValuesChange then [Effect.valuesChange] else []) ++
      [triggerOnFieldsChange (name :: deps.1) none])

/-- `FormStore.setFields(fields)` (lines 626-652): per record, install
the value when one is supplied and broadcast one `setField`
notification; finally notify watchers once with all record paths. -/
def setFields (st : FormState) (fields : List FieldData) : FormState × List Effect :=
  let step := fun (acc : FormState × List Effect × List NamePath) (fd : FieldData) =>
    let s2 := match fd.value with
      | some v => { acc.1 with store := setValue acc.1.store fd.name v false }
      | none => acc.1
    (s2, acc.2.1 ++ notifyObservers s2 (some [fd.name]) (.setField fd),
      acc.2.2 ++ [fd.name])
  let r := fields.foldl step (st, [], [])
  (r.1, r.2.1 ++ [Effect.watch r.2.2])

/-- `FormStore.setFieldValue(name, value)` is `setFields` with the single
record carrying just the name and the value. -/
def setFieldValue (st : FormState) (name : NamePath) (value : StoreVal) :
    FormState × List Effect :=
  setFields st [⟨name, some value, none, none, none, none, false⟩]

-- ======================= reset =======================

/-- The record cache of `resetWithFieldInitialValue`, looked up at one
path: registered named entities declaring an initial value for exactly
that path. -/
def entitiesWithInitialAt (ents : List FieldEnt) (p : NamePath) : List FieldEnt :=
  (pureFieldEntities ents).filter
    (fun f => decide (f.initialValue ≠ StoreVal.undef) && decide (f.name = p))

/-- One entity step of `resetWithFields` (lines 531-570): a
field-declared initial value is written only when the form-level initial
values do not already supply one (they win, the conflict only warns) and
exactly one record declares one for the path (several conflicting
declarations only warn); under `skipExist` the write is further skipped
when the store already holds a value at the path. -/
def resetStepStore (initialValues : StoreVal) (allEnts : List FieldEnt)
    (skipExist : Bool) (store : StoreVal) (f : FieldEnt) : StoreVal :=
  if f.initialValue = StoreVal.undef then store
  else if getValue initialValues f.name ≠ StoreVal.undef then store
  else if (entitiesWithInitialAt allEnts f.name).length > 1 then store
  else if (entitiesWithInitialAt allEnts f.name).length = 0 then store
  else if skipExist = true ∧ getValue store f.name ≠ StoreVal.undef then store
  else setValue store f.name f.initialValue false

/-- `FormStore.resetWithFieldInitialValue` restricted to a required
entity list: fold the per-entity step over the current store. -/
def resetWithFields (st : FormState) (required : List FieldEnt)
    (skipExist : Bool) : FormState :=
  { st with
    store := required.foldl
      (resetStepStore st.initialValues st.fieldEntities skipExist) st.store }

/-- `FormStore.resetFields(nameList?)` (lines 598-620): without a list
the store is rebuilt from scratch out of the initial-values snapshot and
every field-declared initial value is replayed; with a list each path is
reset to its form-level initial value and the declared initial values of
the entities registered at exactly those paths are replayed.  Both ways
broadcast `reset` and notify watchers. -/
def resetFields (st : FormState) (nameList : Option (List NamePath)) :
    FormState × List Effect :=
  match nameList with
  | none =>
    let st1 := { st with store := mergeValues (.node []) st.initialValues }
    let st2 := resetWithFields st1 (pureFieldEntities st1.fieldEntities) false
    (st2, notifyObservers st2 none .reset ++ [Effect.watch []])
  | some paths =>
    let st1 := { st with
      store := paths.foldl
        (fun s p => setValue s p (getValue st.initialValues p) false) st.store }
    let required := paths.foldl
        (fun acc p => acc ++ entitiesWithInitialAt st.fieldEntities p) []
    let st2 := resetWithFields st1 required false
    (st2, notifyObservers st2 (some paths) .reset ++ [Effect.watch paths])

/-- `FormStore.isMergedPreserve`: the entity-level override, else the
form-level policy, else preserve. -/
def isMergedPreserve (formPreserve fieldPreserve : Option Bool) : Bool :=
  match fieldPreserve with
  | some b => b
  | none => formPreserve.getD true

/-- The un-register closure returned by `FormStore.registerField` (lines
737-771): the entity leaves the registry; when the merged policy does
not preserve and (for list fields) the sub path is deep enough, a
changed slot with no surviving same-path entity is reset to the
form-level initial value (removed entirely for list fields), and
`remove` plus the dependency cascade fire; watchers are always
notified. -/
def unregisterField (st : FormState) (ent : FieldEnt) (isListField : Bool)
    (preserve : Option Bool) (subNamePath : NamePath) : FormState × List Effect :=
  let namePath := ent.name
  let st1 := { st with
    fieldEntities := st.fieldEntities.filter (fun g => decide (g.id ≠ ent.id)) }
  if isMergedPreserve st.preserve preserve = false ∧
      (isListField = false ∨ subNamePath.length > 1) then
    let defaultValue := if isListField then StoreVal.undef
      else getValue st.initialValues namePath
    if namePath ≠ [] ∧ getValue st1.store namePath ≠ defaultValue ∧
        st1.fieldEntities.all (fun g => !(matchNamePath g.name namePath)) then
      let st2 := { st1 with store := setValue st1.store namePath defaultValue true }
      let deps := triggerDependenciesUpdate st2 namePath
      (st2, notifyObservers st2 (some [namePath]) .remove ++ deps.2 ++
        [Effect.watch [namePath]])
    else (st1, [Effect.watch [namePath]])
  else (st1, [Effect.watch [namePath]])

-- ======================= validateFields =======================

/-- Modelled from the spec (sections 4.6 and 5; `asyncUtil.ts` is not
among the sources): `allPromiseFinish` waits for every per-field promise
to settle, fulfils with all results when none rejected, and otherwise
rejects with the full result list. -/
def allPromiseFinish (settled : List (Settled FieldValidateResult)) :
    Settled (List FieldValidateResult) :=
  let payloads := settled.map (fun s => match s with
    | .resolved v => v
    | .rejected v => v)
  if settled.any (fun s => match s with
      | .rejected _ => true
      | _ => false) then
    .rejected payloads
  else .resolved payloads

/-- `this.lastValidatePromise = summaryPromise`, run synchronously when a
`validateFields` call starts: the new summary unconditionally becomes
the last started one. -/
def validateFieldsStart (_lastValidatePromise : Option Nat) (summaryPromise : Nat) :
    Option Nat :=
  some summaryPromise

/-- The unconditional settlement tap on the summary promise
(`summaryPromise.catch(r => r).then(...)`, lines 1087-1096): however the
summary settles, and whether or not it has been superseded,
`validateFinish` is broadcast with the result paths and
`triggerOnFieldsChange` is invoked with this call own results
(`resultsOfSummary` is the payload the `.catch(r => r)` recovery step
passes along, whichever way the summary settled). -/
def resultsOfSummary (outcome : Settled (List FieldValidateResult)) :
    List FieldValidateResult :=
  match outcome with
  | .resolved r => r
  | .rejected r => r

def validateFinishEffects (st : FormState)
    (outcome : Settled (List FieldValidateResult)) : List Effect :=
  notifyObservers st (some ((resultsOfSummary outcome).map (fun r => r.name)))
      .validateFinish ++
    [triggerOnFieldsChange ((resultsOfSummary outcome).map (fun r => r.name))
      (some (resultsOfSummary outcome))]

/-- The shaped error delivered to a rejected `validateFields` caller. -/
structure ValidateErrorEntity where
  values : StoreVal
  errorFields : List FieldValidateResult
  outOfDate : Bool
deriving DecidableEq

/-- What the `validateFields` caller observes. -/
inductive CallerOutcome where
  | resolved (values : StoreVal)
  | rejected (e : ValidateErrorEntity)
deriving DecidableEq

/-- The caller-visible branch of `validateFields` (lines 1098-1114): a
fulfilled summary resolves with the values only when this summary is
still the last started one; a superseded fulfilment is converted into a
rejection with no error fields, and every rejection carries
`outOfDate = (lastValidatePromise !== summaryPromise)` and the results
with non-empty errors. -/
def validateCallerOutcome (lastValidatePromise : Option Nat) (summaryPromise : Nat)
    (values : StoreVal) (outcome : Settled (List FieldValidateResult)) :
    CallerOutcome :=
  match outcome with
  | .resolved _ =>
    if lastValidatePromise = some summaryPromise then .resolved values
    else .rejected ⟨values, [], decide (lastValidatePromise ≠ some summaryPromise)⟩
  | .rejected results =>
    .rejected ⟨values, results.filter (fun r => decide (r.errors ≠ [])),
      decide (lastValidatePromise ≠ some summaryPromise)⟩

/-- The value the amended claim C5 predicts for a reset slot: the
form-level initial value when one is present, else the unique
field-declared initial value for the path, else `undefined` (several
conflicting declarations cancel out to `undefined`). -/
def expectedResetValue (st : FormState) (p : NamePath) : StoreVal :=
  if getValue st.initialValues p ≠ .undef then getValue st.initialValues p
  else
    match entitiesWithInitialAt st.fieldEntities p with
    | [f] => f.initialValue
    | _ => (.undef)

/-- Identities of registered entities not yet visited by a cascade. -/
def unvisitedCount (ents : List FieldEnt) (children : List Nat) : Nat :=
  ((ents.map FieldEnt.id).filter (fun i => decide (i ∉ children))).length

/-- A cascade state is coherent when every visited dirty named entity has
its path already collected. -/
def CascadeInv (ents : List FieldEnt) (init : StoreVal) (st : CascadeState) : Prop :=
  ∀ f ∈ ents, f.id ∈ st.children → isFieldDirty init f = true → f.name ≠ [] →
    f.name ∈ st.childrenFields

-- ======================= store lemmas =======================

theorem getEntry_setEntry_same (es : List (Seg × StoreVal)) (k : Seg) (v : StoreVal) :
    getEntry (setEntry es k v) k = some v := by
  induction es with
  | nil => simp [setEntry, getEntry]
  | cons e rest ih =>
    by_cases h : e.1 = k
    · simp [setEntry, getEntry, h]
    · simp [setEntry, getEntry, h, ih]

theorem getEntry_setEntry_other (es : List (Seg × StoreVal)) (k k2 : Seg) (v : StoreVal)
    (h : k ≠ k2) : getEntry (setEntry es k v) k2 = getEntry es k2 := by
  induction es with
  | nil => simp [setEntry, getEntry, h]
  | cons e rest ih =>
    by_cases h1 : e.1 = k
    · simp [setEntry, getEntry, h1, h]
    · simp [setEntry, getEntry, h1, ih]

theorem getEntry_removeEntry_same (es : List (Seg × StoreVal)) (k : Seg) :
    getEntry (removeEntry es k) k = none := by
  induction es with
  | nil => simp [removeEntry, getEntry]
  | cons e rest ih =>
    by_cases h : e.1 = k
    · simpa [removeEntry, List.filter_cons, h] using ih
    · simpa [removeEntry, List.filter_cons, getEntry, h] using ih

theorem getEntry_removeEntry_other (es : List (Seg × StoreVal)) (k k2 : Seg)
    (h : k ≠ k2) : getEntry (removeEntry es k) k2 = getEntry es k2 := by
  induction es with
  | nil => simp [removeEntry, getEntry]
  | cons e rest ih =>
    by_cases h1 : e.1 = k
    · have h2 : ¬ e.1 = k2 := by rw [h1]; exact h
      have hr : removeEntry (e :: rest) k = removeEntry rest k := by
        simp [removeEntry, List.filter_cons, h1]
      rw [hr, ih]
      simp [getEntry, h2]
    · have hr : removeEntry (e :: rest) k = e :: removeEntry rest k := by
        simp [removeEntry, List.filter_cons, h1]
      rw [hr]
      by_cases h2 : e.1 = k2
      · simp [getEntry, h2]
      · simp [getEntry, h2, ih]

theorem setValue_single (s : StoreVal) (k : Seg) (v : StoreVal) (del : Bool) :
    setValue s [k] v del =
      if del = true ∧ v = .undef then .node (removeEntry (childEntries s) k)
      else .node (setEntry (childEntries s) k v) := rfl

theorem setValue_cons2 (s : StoreVal) (k k2 : Seg) (r : NamePath) (v : StoreVal)
    (del : Bool) :
    setValue s (k :: k2 :: r) v del =
      .node (setEntry (childEntries s) k
        (setValue (match getEntry (childEntries s) k with
                   | some c => c
                   | none => .node []) (k2 :: r) v del)) := rfl

/-- Round trip: reading back a freshly written path yields the written value. -/
theorem getValue_setValue_same (p : NamePath) (s v : StoreVal) (del : Bool) :
    getValue (setValue s p v del) p = v := by
  induction p generalizing s with
  | nil => rfl
  | cons k rest ih =>
    cases rest with
    | nil =>
      rw [setValue_single]
      by_cases hdel : del = true ∧ v = .undef
      · rw [if_pos hdel]
        simp [getValue, getEntry_removeEntry_same, hdel.2]
      · rw [if_neg hdel]
        simp [getValue, getEntry_setEntry_same]
    | cons k2 rest2 =>
      rw [setValue_cons2]
      simp only [getValue, getEntry_setEntry_same]
      exact ih _

/-- Non-interference: writing at `p` leaves the value at any independent
path `q` unchanged. -/
theorem getValue_setValue_independent (p q : NamePath) (s v : StoreVal) (del : Bool)
    (h : pathsIndependent p q) :
    getValue (setValue s p v del) q = getValue s q := by
  induction p generalizing s q with
  | nil => exact absurd h.1 (by simp [pathStarts])
  | cons a ps ih =>
    cases q with
    | nil => exact absurd h.2 (by simp [pathStarts])
    | cons b qs =>
      by_cases hab : a = b
      · subst hab
        have hps : pathsIndependent ps qs := by
          rcases h with ⟨h1, h2⟩
          simp [pathStarts] at h1 h2
          exact ⟨h1, h2⟩
        cases ps with
        | nil =>
          exact absurd hps.1 (by simp [pathStarts])
        | cons c cs =>
          cases qs with
          | nil =>
            exact absurd hps.2 (by simp [pathStarts])
          | cons b2 qs2 =>
            rw [setValue_cons2]
            have hstep : ∀ t : StoreVal,
                getValue (StoreVal.node (setEntry (childEntries s) a t)) (a :: b2 :: qs2) =
                  getValue t (b2 :: qs2) := by
              intro t
              simp [getValue, getEntry_setEntry_same]
            rw [hstep, ih _ _ hps]
            cases s with
            | node es =>
              simp only [childEntries]
              cases hge : getEntry es a with
              | some child => simp [getValue, hge]
              | none => simp [getValue, hge, getEntry]
            | undef => simp [getValue, childEntries, getEntry]
            | leaf str => simp [getValue, childEntries, getEntry]
      · cases ps with
        | nil =>
          rw [setValue_single]
          by_cases hdel : del = true ∧ v = .undef
          · rw [if_pos hdel]
            simp only [getValue, getEntry_removeEntry_other _ a b hab]
            cases s <;> simp [getValue, childEntries, getEntry]
          · rw [if_neg hdel]
            simp only [getValue, getEntry_setEntry_other _ a b _ hab]
            cases s <;> simp [getValue, childEntries, getEntry]
        | cons c cs =>
          rw [setValue_cons2]
          simp only [getValue, getEntry_setEntry_other _ a b _ hab]
          cases s <;> simp [getValue, childEntries, getEntry]

/-- Merging a source store into an empty object reproduces the source,
provided its top-level keys are distinct. -/
theorem mergeValues_empty (s : StoreVal) (h : topKeysNodup s) :
    mergeValues (.node []) s = s := by
  cases s with
  | undef => simp [mergeValues]
  | leaf str => simp [mergeValues]
  | node ss =>
    have key : ∀ (ss : List (Seg × StoreVal)) (ts : List (Seg × StoreVal)),
        ((ts ++ ss).map Prod.fst).Nodup → mergeInto ts ss = ts ++ ss := by
      intro ss
      induction ss with
      | nil => intro ts _; simp [mergeInto]
      | cons e rest ih =>
        intro ts hnd
        have hk : getEntry ts e.1 = none := by
          have hnotin : e.1 ∉ ts.map Prod.fst := by
            intro hc
            have hdisj : (ts.map Prod.fst).Disjoint ((e :: rest).map Prod.fst) := by
              have := (List.nodup_append.mp (by simpa using hnd)).2.2
              exact this
            exact hdisj hc (by simp)
          clear hnd
          induction ts with
          | nil => simp [getEntry]
          | cons t trest ihts =>
            have ht : ¬ t.1 = e.1 := by
              intro hc
              exact hnotin (by simp [hc])
            have hrest : e.1 ∉ trest.map Prod.fst := by
              intro hc
              exact hnotin (by simp [hc])
            simp [getEntry, ht, ihts hrest]
        have hset : setEntry ts e.1 e.2 = ts ++ [e] := by
          have hgen : ∀ (ts : List (Seg × StoreVal)), getEntry ts e.1 = none →
              setEntry ts e.1 e.2 = ts ++ [e] := by
            intro ts
            induction ts with
            | nil => intro _; simp [setEntry]
            | cons t trest ihts =>
              intro hg
              by_cases ht : t.1 = e.1
              · simp [getEntry, ht] at hg
              · have hg2 : getEntry trest e.1 = none := by
                  simpa [getEntry, ht] using hg
                simp [setEntry, ht, ihts hg2]
          exact hgen ts hk
        calc mergeInto ts (e :: rest)
            = mergeInto (setEntry ts e.1 e.2) rest := by
              simp [mergeInto, hk]
          _ = (ts ++ [e]) ++ rest := by
              rw [hset]
              exact ih (ts ++ [e]) (by simpa using hnd)
          _ = ts ++ e :: rest := by simp
    have hfin := key ss [] (by simpa [topKeysNodup] using h)
    simp [mergeValues, childEntries, hfin]

-- ======================= rule engine lemmas =======================

theorem mem_annotateFrom_idx (i : Nat) (rs : List RuleData) :
    ∀ y ∈ annotateFrom i rs, i ≤ y.ruleIndex := by
  induction rs generalizing i with
  | nil => simp [annotateFrom]
  | cons r rest ih =>
    intro y hy
    simp only [annotateFrom, List.mem_cons] at hy
    rcases hy with h | h
    · simp [h]
    · have := ih (i + 1) y h
      omega

theorem mem_annotateFrom (i : Nat) (rs : List RuleData) (y : FilledRule)
    (hy : y ∈ annotateFrom i rs) :
    ∃ r ∈ rs, y.warningOnly = r.warningOnly ∧ y.errors = r.errors := by
  induction rs generalizing i with
  | nil => simp [annotateFrom] at hy
  | cons r rest ih =>
    simp only [annotateFrom, List.mem_cons] at hy
    rcases hy with h | h
    · exact ⟨r, by simp, by simp [h]⟩
    · rcases ih (i + 1) h with ⟨r2, hr2, h2⟩
      exact ⟨r2, by simp [hr2], h2⟩

theorem annotateFrom_mem (i : Nat) (rs : List RuleData) (r : RuleData) (hr : r ∈ rs) :
    ∃ y ∈ annotateFrom i rs, y.warningOnly = r.warningOnly ∧ y.errors = r.errors := by
  induction rs generalizing i with
  | nil => simp at hr
  | cons r0 rest ih =>
    rcases List.mem_cons.mp hr with h | h
    · exact ⟨⟨r0.warningOnly, r0.errors, i⟩, by simp [annotateFrom], by simp [h]⟩
    · rcases ih (i + 1) h with ⟨y, hy, h2⟩
      exact ⟨y, by simp [annotateFrom, hy], h2⟩

theorem ruleLe_same_group (x y : FilledRule) (hw : x.warningOnly = y.warningOnly)
    (hlt : x.ruleIndex < y.ruleIndex) : ruleLe x y = true := by
  simp only [ruleLe, ruleCmp, hw, if_pos, decide_eq_true_eq]
  omega

theorem ruleLe_err_warn (x y : FilledRule) (hx : x.warningOnly = false)
    (hy : y.warningOnly = true) : ruleLe x y = true := by
  simp [ruleLe, ruleCmp, hx, hy]

theorem ruleLe_warn_err (x y : FilledRule) (hx : x.warningOnly = true)
    (hy : y.warningOnly = false) : ruleLe x y = false := by
  simp [ruleLe, ruleCmp, hx, hy]

theorem insertSorted_front (x : FilledRule) (l : List FilledRule)
    (h : ∀ y ∈ l, ruleLe x y = true) : insertSorted x l = x :: l := by
  cases l with
  | nil => rfl
  | cons y ys => simp [insertSorted, h y (by simp)]

theorem insertSorted_append (x : FilledRule) (A B : List FilledRule)
    (hA : ∀ y ∈ A, ruleLe x y = false) (hB : ∀ y ∈ B, ruleLe x y = true) :
    insertSorted x (A ++ B) = A ++ x :: B := by
  induction A with
  | nil => simpa using insertSorted_front x B hB
  | cons y ys ih =>
    have hy := hA y (by simp)
    have htail := ih (fun z hz => hA z (by simp [hz]))
    simp [insertSorted, hy, htail]

theorem sortRules_annotateFrom (i : Nat) (rs : List RuleData) :
    sortRules (annotateFrom i rs) =
      (annotateFrom i rs).filter (fun r => !r.warningOnly) ++
      (annotateFrom i rs).filter (fun r => r.warningOnly) := by
  induction rs generalizing i with
  | nil => simp [annotateFrom, sortRules]
  | cons r rest ih =>
    have hstep : sortRules (annotateFrom i (r :: rest)) =
        insertSorted ⟨r.warningOnly, r.errors, i⟩
          (sortRules (annotateFrom (i + 1) rest)) := by
      simp [annotateFrom, sortRules]
    rw [hstep, ih (i + 1)]
    have hmemF : ∀ y ∈ (annotateFrom (i + 1) rest).filter (fun z => !z.warningOnly),
        y.warningOnly = false ∧ i < y.ruleIndex := by
      intro y hy
      rcases List.mem_filter.mp hy with ⟨hmem, hpred⟩
      refine ⟨by simpa using hpred, ?_⟩
      have := mem_annotateFrom_idx (i + 1) rest y hmem
      omega
    have hmemG : ∀ y ∈ (annotateFrom (i + 1) rest).filter (fun z => z.warningOnly),
        y.warningOnly = true ∧ i < y.ruleIndex := by
      intro y hy
      rcases List.mem_filter.mp hy with ⟨hmem, hpred⟩
      refine ⟨by simpa using hpred, ?_⟩
      have := mem_annotateFrom_idx (i + 1) rest y hmem
      omega
    by_cases hw : r.warningOnly = true
    · rw [insertSorted_append _ _ _
        (fun y hy => ruleLe_warn_err _ y (by simp [hw]) (hmemF y hy).1)
        (fun y hy => ruleLe_same_group _ y (by simp [hw, (hmemG y hy).1])
          (hmemG y hy).2)]
      simp [annotateFrom, List.filter_cons, hw]
    · have hw2 : r.warningOnly = false := by simpa using hw
      have hall : ∀ y ∈ (annotateFrom (i + 1) rest).filter (fun z => !z.warningOnly) ++
          (annotateFrom (i + 1) rest).filter (fun z => z.warningOnly),
          ruleLe ⟨r.warningOnly, r.errors, i⟩ y = true := by
        intro y hy
        rcases List.mem_append.mp hy with h | h
        · exact ruleLe_same_group _ y (by simp [hw2, (hmemF y h).1]) (hmemF y h).2
        · exact ruleLe_err_warn _ y (by simp [hw2]) (hmemG y h).1
      rw [insertSorted_front _ _ hall]
      simp [annotateFrom, List.filter_cons, hw2]

theorem mem_sortRules_annotate (rules : List RuleData) (y : FilledRule) :
    y ∈ sortRules (annotate rules) ↔ y ∈ annotate rules := by
  rw [show annotate rules = annotateFrom 0 rules from rfl, sortRules_annotateFrom 0 rules]
  simp only [List.mem_append, List.mem_filter]
  by_cases hw : y.warningOnly = true <;> simp [hw]

theorem serialValidate_all_pass (l : List FilledRule) (h : ∀ r ∈ l, r.errors = []) :
    serialValidate l = (l, .resolved []) := by
  induction l with
  | nil => rfl
  | cons r rest ih =>
    have hr := h r (by simp)
    simp [serialValidate, hr, ih (fun z hz => h z (by simp [hz]))]

theorem serialValidate_rejects_of_mem (l : List FilledRule) (y : FilledRule)
    (hy : y ∈ l) (hyerr : y.errors ≠ []) :
    ∃ es, (serialValidate l).2 = .rejected es ∧ es ≠ [] ∧ ∀ e ∈ es, e.errors ≠ [] := by
  induction l with
  | nil => simp at hy
  | cons r rest ih =>
    by_cases hr : r.errors = []
    · have hyr : y ∈ rest := by
        rcases List.mem_cons.mp hy with h | h
        · exact absurd hr (h ▸ hyerr)
        · exact h
      rcases ih hyr with ⟨es, h1, h2, h3⟩
      exact ⟨es, by simp [serialValidate, hr, h1], h2, h3⟩
    · refine ⟨[⟨r.errors, r⟩], by simp [serialValidate, hr], by simp, ?_⟩
      intro e he
      simp at he
      simp [he, hr]

theorem mergedErrorsOf_all_empty (es : List RuleError) (h : ∀ e ∈ es, e.errors = []) :
    mergedErrorsOf es = [] := by
  induction es with
  | nil => rfl
  | cons e rest ih =>
    have he := h e (by simp)
    have hr := ih (fun z hz => h z (by simp [hz]))
    by_cases hw : e.rule.warningOnly = true
    · simpa [mergedErrorsOf, List.filter_cons, hw] using hr
    · have hw2 : e.rule.warningOnly = false := by simpa using hw
      simp only [mergedErrorsOf, List.filter_cons] at hr ⊢
      simp [hw2, he, hr]

theorem mergedWarningsOf_all_empty (es : List RuleError) (h : ∀ e ∈ es, e.errors = []) :
    mergedWarningsOf es = [] := by
  induction es with
  | nil => rfl
  | cons e rest ih =>
    have he := h e (by simp)
    have hr := ih (fun z hz => h z (by simp [hz]))
    by_cases hw : e.rule.warningOnly = true
    · simp only [mergedWarningsOf, List.filter_cons] at hr ⊢
      simp [hw, he, hr]
    · have hw2 : e.rule.warningOnly = false := by simpa using hw
      simpa [mergedWarningsOf, List.filter_cons, hw2] using hr

-- ======================= claims: rule engine =======================

/-- Claim C7: the rule engine annotates each rule with its original index
and reorders the list so that every warning-only rule comes after every
non-warning rule, while inside each partition the original relative
order (equivalently, the `ruleIndex` tie-break) is preserved. -/
theorem claim_C7_rule_reorder (rules : List RuleData) :
    sortRules (annotate rules) =
      (annotate rules).filter (fun r => !r.warningOnly) ++
      (annotate rules).filter (fun r => r.warningOnly) :=
  sortRules_annotateFrom 0 rules

/-- Claim C3: with `validateFirst === true` the (reordered) rules are
evaluated strictly one at a time in order; the summary rejects with
exactly the first rule that produces any message, and no rule after that
failure is ever evaluated (the evaluation trace stops at it). -/
theorem claim_C3_serial_strict (rules : List RuleData) (order : List Nat)
    (pre post : List FilledRule) (A : FilledRule)
    (hsplit : sortRules (annotate rules) = pre ++ A :: post)
    (hpre : ∀ r ∈ pre, r.errors = []) (hA : A.errors ≠ []) :
    validateRulesOutcome rules .serial order = some (.rejected [⟨A.errors, A⟩]) ∧
    (serialValidate (sortRules (annotate rules))).1 = pre ++ [A] := by
  have key : ∀ (pre2 : List FilledRule), (∀ r ∈ pre2, r.errors = []) →
      serialValidate (pre2 ++ A :: post) = (pre2 ++ [A], .rejected [⟨A.errors, A⟩]) := by
    intro pre2 hpre2
    induction pre2 with
    | nil => simp [serialValidate, hA]
    | cons r rest ih =>
      have hr : r.errors = [] := hpre2 r (by simp)
      have htail := ih (fun z hz => hpre2 z (by simp [hz]))
      simp [serialValidate, hr, htail]
  constructor
  · simp [validateRulesOutcome, hsplit, key pre hpre]
  · simp [hsplit, key pre hpre]

/-- Witness for claim C3: two failing rules; the result carries exactly
the first rule messages and the second rule is never evaluated. -/
theorem claim_C3_witness :
    validateRulesOutcome [⟨false, ["ea"]⟩, ⟨false, ["eb"]⟩] .serial [] =
      some (.rejected [⟨["ea"], ⟨false, ["ea"], 0⟩⟩]) ∧
    (serialValidate (sortRules (annotate [⟨false, ["ea"]⟩, ⟨false, ["eb"]⟩]))).1 =
      [] ++ [⟨false, ["ea"], 0⟩] :=
  claim_C3_serial_strict [⟨false, ["ea"]⟩, ⟨false, ["eb"]⟩] [] []
    [⟨false, ["eb"], 1⟩] ⟨false, ["ea"], 0⟩ (by decide) (by decide) (by decide)

/-- Claim C2 counterexample: under the default parallel-collect
scheduling a run with a single passing rule (no rule produces any error
message) still settles as a rejection, so the claimed "success resolves
with an empty list; a successful run never rejects" fails on the code:
the parallel branches convert every settlement into a rejection. -/
theorem claim_C2_counterexample :
    validateRulesOutcome [⟨false, []⟩] .off [0] =
      some (.rejected [⟨[], ⟨false, [], 0⟩⟩]) ∧
    validateRulesOutcome [⟨false, []⟩] .off [0] ≠ some (.resolved []) := by
  constructor
  · rfl
  · decide

/-- Claim C2 (amended): in serial-strict mode a run in which no rule
produces a message resolves with the empty list, and a run with a
failing rule rejects with failing RuleErrors only; in both parallel
modes the summary promise, whenever it settles, always rejects — even
when every rule passed, in which case the rejection carries no error
message and the downstream per-field consumer in `validateFields` turns
it back into a fulfilled clean result. -/
theorem claim_C2_result_polarity (rules : List RuleData) (order : List Nat) :
    ((∀ r ∈ rules, r.errors = []) →
      validateRulesOutcome rules .serial order = some (.resolved [])) ∧
    ((∃ r ∈ rules, r.errors ≠ []) →
      ∃ es, validateRulesOutcome rules .serial order = some (.rejected es) ∧
        es ≠ [] ∧ ∀ e ∈ es, e.errors ≠ []) ∧
    (∀ s, validateRulesOutcome rules .off order = some s → ∃ es, s = .rejected es) ∧
    (∀ s, validateRulesOutcome rules .parallelFirst order = some s →
      ∃ es, s = .rejected es) ∧
    ((∀ r ∈ rules, r.errors = []) → ∀ name es,
      validateRulesOutcome rules .off order = some (.rejected es) →
        fieldResultOf name (.rejected es) = .resolved ⟨name, [], []⟩) := by
  have hsorted : ∀ y ∈ sortRules (annotate rules), ∃ r ∈ rules,
      y.warningOnly = r.warningOnly ∧ y.errors = r.errors := by
    intro y hy
    exact mem_annotateFrom 0 rules y ((mem_sortRules_annotate rules y).mp hy)
  refine ⟨?_, ?_, ?_, ?_, ?_⟩
  · intro hall
    have hpass : ∀ y ∈ sortRules (annotate rules), y.errors = [] := by
      intro y hy
      rcases hsorted y hy with ⟨r, hr, _, herr⟩
      rw [herr]
      exact hall r hr
    simp [validateRulesOutcome, serialValidate_all_pass _ hpass]
  · rintro ⟨r, hr, hrerr⟩
    rcases annotateFrom_mem 0 rules r hr with ⟨y, hy, hyw, hye⟩
    have hysorted : y ∈ sortRules (annotate rules) :=
      (mem_sortRules_annotate rules y).mpr hy
    rcases serialValidate_rejects_of_mem _ y hysorted (by rw [hye]; exact hrerr) with
      ⟨es, h1, h2, h3⟩
    exact ⟨es, by simp [validateRulesOutcome, h1], h2, h3⟩
  · intro s hs
    have heq : s = .rejected (collectAll (sortRules (annotate rules))) := by
      simp only [validateRulesOutcome] at hs
      exact (Option.some.inj hs).symm
    exact ⟨_, heq⟩
  · intro s hs
    simp only [validateRulesOutcome] at hs
    by_cases hnil : sortRules (annotate rules) = []
    · simp [hnil] at hs
    · simp only [hnil, if_neg, if_false] at hs
      exact ⟨_, ((Option.some.inj (by simpa [hnil] using hs))).symm⟩
  · intro hall name es hes
    have heq : es = collectAll (sortRules (annotate rules)) := by
      simp only [validateRulesOutcome] at hes
      exact (Settled.rejected.inj (Option.some.inj hes)).symm
    have hmemes : ∀ e ∈ es, e.errors = [] := by
      intro e he
      rw [heq] at he
      rcases List.mem_map.mp he with ⟨y, hy, hey⟩
      rcases hsorted y hy with ⟨r, hr, _, herr⟩
      rw [← hey]
      simpa [herr] using hall r hr
    simp [fieldResultOf, mergedErrorsOf_all_empty es hmemes,
      mergedWarningsOf_all_empty es hmemes]

/-- Witness for the amended claim C2: one passing rule resolves cleanly
under serial-strict scheduling, and the always-reject parallel result is
converted back into a clean fulfilled field result downstream. -/
theorem claim_C2_result_polarity_witness :
    validateRulesOutcome [⟨false, []⟩] .serial [0] = some (.resolved []) ∧
    fieldResultOf [] (.rejected (collectAll (sortRules (annotate [⟨false, []⟩])))) =
      .resolved ⟨[], [], []⟩ := by
  constructor
  · exact (claim_C2_result_polarity [⟨false, []⟩] [0]).1 (by decide)
  · exact (claim_C2_result_polarity [⟨false, []⟩] [0]).2.2.2.2 (by decide) []
      (collectAll (sortRules (annotate [⟨false, []⟩]))) rfl

/-- Claim C8: a user validator that throws synchronously is caught by
the try/catch wrapper in `validateRule` and converted into exactly one
generic logic-error message taken from the default entry of the merged
message table (after template substitution); the exception never
escapes as an uncaught failure. -/
theorem claim_C8_thrown_validator (defaultMsg : String)
    (kv : String → Option String) (rule : RuleEvalModel)
    (h : rule.validator = some .throws) :
    validateRuleMessages defaultMsg kv rule = [replaceMessage defaultMsg kv] := by
  simp [validateRuleMessages, h, wrappedValidatorMessages]

/-- Witness for claim C8: a throwing validator yields exactly the
default table entry (here a template without placeholders). -/
theorem claim_C8_witness :
    validateRuleMessages "Validation error" (fun _ => none)
      ⟨false, some .throws, []⟩ = ["Validation error"] := by
  rw [claim_C8_thrown_validator "Validation error" (fun _ => none)
    ⟨false, some .throws, []⟩ rfl]
  rfl

-- ======================= claims: field reactions and store ops =======================

/-- Claim C6 counterexample: an untouched, clean field that receives an
external `valueUpdate` broadcast with a changed value comes out with
`touched = true` (and `dirty = true`): the block sets the flags, it does
not reset the field to the untouched state the claim describes. -/
theorem claim_C6_counterexample :
    (onStoreChange ⟨[Seg.str "a"], [], .noneSU⟩ ⟨false, false, none, [], []⟩
      (.node []) none (.valueUpdate .external)
      (.node [(Seg.str "a", .leaf "v")]) 0).1.touched = true := by
  rfl

/-- Claim C6 (amended): a `valueUpdate` broadcast with source `external`
whose new value at the field path differs from the previous one
force-marks the field as touched and dirty and clears its
validating/error/warning state, before the branch dispatch runs (the
`valueUpdate` branch itself changes no further state): externally
injected values are treated as touched and dirty, not as untouched. -/
theorem claim_C6_external_value_update (props : FieldProps) (st0 : FieldState)
    (prevStore curStore : StoreVal) (namePathList : Option (List NamePath))
    (fresh : Nat)
    (hchange : getValue prevStore props.name ≠ getValue curStore props.name) :
    (onStoreChange props st0 prevStore namePathList (.valueUpdate .external)
      curStore fresh).1 = ⟨true, true, none, [], []⟩ := by
  simp only [onStoreChange]
  split
  · simp [hchange]
  · split <;> simp [hchange]

/-- Witness for the amended claim C6: a concrete untouched field after an
external value change. -/
theorem claim_C6_external_value_update_witness :
    (onStoreChange ⟨[Seg.str "a"], [], .noneSU⟩ ⟨false, false, some 7, ["old"], ["w"]⟩
      (.node []) none (.valueUpdate .external)
      (.node [(Seg.str "a", .leaf "v")]) 0).1 = ⟨true, true, none, [], []⟩ :=
  claim_C6_external_value_update ⟨[Seg.str "a"], [], .noneSU⟩
    ⟨false, false, some 7, ["old"], ["w"]⟩ (.node [])
    (.node [(Seg.str "a", .leaf "v")]) none 0 (by decide)

/-- Claim C9: `setFieldValue(name, value)` is `setFields` with the one
record carrying the name and value: the store is updated at that path,
exactly one `setField` notification and one watch notification for that
path are emitted, and no `valueUpdate` broadcast, no dependency-cascade
validation, no `onValuesChange` and no `onFieldsChange` occur — unlike
an internal `updateValue` dispatch, whose trace starts with a
`valueUpdate(internal)` broadcast. -/
theorem claim_C9_set_field_value (st : FormState) (name : NamePath)
    (value : StoreVal) (hsub : st.subscribable = true) :
    (setFieldValue st name value).1.store = setValue st.store name value false ∧
    (setFieldValue st name value).2 =
      [Effect.notify (.setField ⟨name, some value, none, none, none, none, false⟩)
        (some [name]), Effect.watch [name]] ∧
    (∀ e ∈ (setFieldValue st name value).2,
      (∀ src paths, e ≠ .notify (.valueUpdate src) paths) ∧
      (∀ paths, e ≠ .validateStart paths) ∧
      e ≠ .valuesChange ∧
      (∀ paths results, e ≠ .fieldsChange paths results)) ∧
    Effect.notify (.valueUpdate .internal) (some [name]) ∈ (updateValue st name value).2 := by
  have heff : (setFieldValue st name value).2 =
      [Effect.notify (.setField ⟨name, some value, none, none, none, none, false⟩)
        (some [name]), Effect.watch [name]] := by
    simp [setFieldValue, setFields, notifyObservers, hsub]
  refine ⟨?_, heff, ?_, ?_⟩
  · simp [setFieldValue, setFields]
  · intro e he
    rw [heff] at he
    rcases List.mem_cons.mp he with h | h
    · subst h
      refine ⟨fun src paths => by simp, fun paths => by simp, by simp, fun paths results => by simp⟩
    · have h2 : e = Effect.watch [name] := by simpa using h
      subst h2
      refine ⟨fun src paths => by simp, fun paths => by simp, by simp, fun paths results => by simp⟩
  · simp [updateValue, notifyObservers, hsub]

/-- Witness for claim C9: a concrete one-field store. -/
theorem claim_C9_witness :
    (setFieldValue ⟨.node [], .node [], [], none, true, false, false, none⟩
      [Seg.str "a"] (.leaf "v")).2 =
      [Effect.notify (.setField ⟨[Seg.str "a"], some (.leaf "v"), none, none, none,
        none, false⟩) (some [[Seg.str "a"]]), Effect.watch [[Seg.str "a"]]] :=
  (claim_C9_set_field_value ⟨.node [], .node [], [], none, true, false, false, none⟩
    [Seg.str "a"] (.leaf "v") rfl).2.1

-- ======================= claims: validation supersession =======================

/-- Claim C1: once a second `validateFields` call has started,
`lastValidatePromise` points at the newer summary, so the settlement of
the first summary can never resolve the caller with values and any
rejection it produces carries `outOfDate = true`; per field, a settling
rule evaluation leaves the errors and warnings untouched whenever its
root promise is no longer that field current `validatePromise`. -/
theorem claim_C1_supersession (last0 : Option Nat) (t1 t2 : Nat) (values : StoreVal)
    (outcome : Settled (List FieldValidateResult)) (fst : FieldState) (root : Nat)
    (ruleErrors : List RuleError) (hne : t1 ≠ t2)
    (hfield : fst.validatePromise ≠ some root) :
    (∀ v, validateCallerOutcome (validateFieldsStart (validateFieldsStart last0 t1) t2)
      t1 values outcome ≠ .resolved v) ∧
    (∃ e, validateCallerOutcome (validateFieldsStart (validateFieldsStart last0 t1) t2)
      t1 values outcome = .rejected e ∧ e.outOfDate = true) ∧
    fieldValidateSettle fst root ruleErrors = fst := by
  have hlast : validateFieldsStart (validateFieldsStart last0 t1) t2 = some t2 := rfl
  have hne2 : (some t2 : Option Nat) ≠ some t1 := by simpa using Ne.symm hne
  refine ⟨?_, ?_, ?_⟩
  · intro v hv
    rw [hlast] at hv
    cases outcome with
    | resolved r => simp [validateCallerOutcome, hne2] at hv
    | rejected r => simp [validateCallerOutcome] at hv
  · rw [hlast]
    cases outcome with
    | resolved r =>
      refine ⟨⟨values, [], decide ((some t2 : Option Nat) ≠ some t1)⟩, ?_, ?_⟩
      · simp [validateCallerOutcome, hne2]
      · simp [hne2]
    | rejected r =>
      refine ⟨⟨values, r.filter (fun x => decide (x.errors ≠ [])),
        decide ((some t2 : Option Nat) ≠ some t1)⟩, rfl, ?_⟩
      simp [hne2]
  · simp [fieldValidateSettle, hfield]

/-- Witness for claim C1: a superseded fulfilment is not a resolution,
and a stale per-field settlement changes nothing. -/
theorem claim_C1_witness :
    (validateCallerOutcome (validateFieldsStart (validateFieldsStart none 1) 2) 1
      (.node []) (.resolved []) ≠ .resolved (.node [])) ∧
    fieldValidateSettle ⟨false, false, none, [], []⟩ 5 [⟨["x"], ⟨false, ["x"], 0⟩⟩] =
      ⟨false, false, none, [], []⟩ := by
  have h := claim_C1_supersession none 1 2 (.node []) (.resolved [])
    ⟨false, false, none, [], []⟩ 5 [⟨["x"], ⟨false, ["x"], 0⟩⟩] (by decide) (by decide)
  exact ⟨h.1 (.node []), h.2.2⟩

/-- Claim C10: once its promise list settles, every `validateFields`
call — also one later superseded — broadcasts `validateFinish` with its
own result paths and invokes `triggerOnFieldsChange` with its own
results: the settlement tap never consults `lastValidatePromise`; the
identity check gates only the caller-visible resolution. -/
theorem claim_C10_always_broadcast (st : FormState)
    (outcome : Settled (List FieldValidateResult)) (last : Option Nat)
    (task : Nat) (values : StoreVal) (hsub : st.subscribable = true) :
    validateFinishEffects st outcome =
      [Effect.notify .validateFinish
        (some ((resultsOfSummary outcome).map (fun r => r.name))),
       triggerOnFieldsChange ((resultsOfSummary outcome).map (fun r => r.name))
        (some (resultsOfSummary outcome))] ∧
    (last ≠ some task →
      ∀ v, validateCallerOutcome last task values outcome ≠ .resolved v) := by
  constructor
  · simp [validateFinishEffects, notifyObservers, hsub]
  · intro hne v hv
    cases outcome with
    | resolved r =>
      have : ¬ (last = some task) := hne
      simp [validateCallerOutcome, this] at hv
    | rejected r => simp [validateCallerOutcome] at hv

/-- Witness for claim C10: a concrete failing result is broadcast even
though the summary at hand is not the last started one. -/
theorem claim_C10_witness :
    validateFinishEffects ⟨.node [], .node [], [], none, true, false, false, none⟩
      (.rejected [⟨[Seg.str "a"], ["boom"], []⟩]) =
      [Effect.notify .validateFinish (some [[Seg.str "a"]]),
       triggerOnFieldsChange [[Seg.str "a"]] (some [⟨[Seg.str "a"], ["boom"], []⟩])] :=
  (claim_C10_always_broadcast ⟨.node [], .node [], [], none, true, false, false, none⟩
    (.rejected [⟨[Seg.str "a"], ["boom"], []⟩]) none 0 (.node []) rfl).1

-- ======================= reset lemmas (claim C5) =======================

theorem resetStepStore_preserves (initVals : StoreVal) (allEnts : List FieldEnt)
    (skip : Bool) (store : StoreVal) (f : FieldEnt) (p : NamePath)
    (h : f.initialValue = .undef ∨ getValue initVals f.name ≠ .undef ∨
      (entitiesWithInitialAt allEnts f.name).length ≠ 1 ∨ pathsIndependent f.name p) :
    getValue (resetStepStore initVals allEnts skip store f) p = getValue store p := by
  unfold resetStepStore
  split_ifs with g1 g2 g3 g4 g5 <;> try rfl
  rcases h with h1 | h2 | h3 | h4
  · exact absurd h1 g1
  · exact absurd h2 g2
  · have hlen : (entitiesWithInitialAt allEnts f.name).length = 1 := by omega
    exact absurd hlen h3
  · exact getValue_setValue_independent _ _ _ _ _ h4

theorem resetStepStore_active (initVals : StoreVal) (allEnts : List FieldEnt)
    (store : StoreVal) (f : FieldEnt)
    (h1 : f.initialValue ≠ .undef) (h2 : getValue initVals f.name = .undef)
    (h3 : (entitiesWithInitialAt allEnts f.name).length = 1) :
    resetStepStore initVals allEnts false store f =
      setValue store f.name f.initialValue false := by
  unfold resetStepStore
  simp [h1, h2, h3]

theorem foldl_resetStep_preserves (initVals : StoreVal) (allEnts : List FieldEnt)
    (skip : Bool) (l : List FieldEnt) (store : StoreVal) (p : NamePath)
    (h : ∀ f ∈ l, f.initialValue = .undef ∨ getValue initVals f.name ≠ .undef ∨
      (entitiesWithInitialAt allEnts f.name).length ≠ 1 ∨ pathsIndependent f.name p) :
    getValue (l.foldl (resetStepStore initVals allEnts skip) store) p =
      getValue store p := by
  induction l generalizing store with
  | nil => rfl
  | cons f rest ih =>
    rw [List.foldl_cons, ih _ (fun z hz => h z (by simp [hz]))]
    exact resetStepStore_preserves initVals allEnts skip store f p (h f (by simp))

theorem foldl_resetStep_unique (initVals : StoreVal) (allEnts : List FieldEnt)
    (p : NamePath) (f0 : FieldEnt)
    (hform : getValue initVals p = .undef)
    (hname : f0.name = p)
    (hinit : f0.initialValue ≠ .undef)
    (hcount : (entitiesWithInitialAt allEnts p).length = 1) :
    ∀ (l : List FieldEnt) (store : StoreVal),
      l.filter (fun f => decide (f.initialValue ≠ StoreVal.undef) &&
        decide (f.name = p)) = [f0] →
      (∀ f ∈ l, f.initialValue ≠ .undef → f.name = p ∨ pathsIndependent f.name p) →
      getValue (l.foldl (resetStepStore initVals allEnts false) store) p =
        f0.initialValue := by
  intro l
  induction l with
  | nil =>
    intro store hfilter _
    simp at hfilter
  | cons f rest ih =>
    intro store hfilter hindep
    by_cases hpred : (decide (f.initialValue ≠ StoreVal.undef) &&
        decide (f.name = p)) = true
    · rw [List.filter_cons, if_pos hpred] at hfilter
      have hff0 : f = f0 := (List.cons.inj hfilter).1
      have hrest : rest.filter (fun f => decide (f.initialValue ≠ StoreVal.undef) &&
          decide (f.name = p)) = [] := (List.cons.inj hfilter).2
      have hfp : f.name = p := by
        have := hpred
        simp at this
        exact this.2
      have hfi : f.initialValue ≠ StoreVal.undef := by
        have := hpred
        simp at this
        exact this.1
      rw [List.foldl_cons, resetStepStore_active initVals allEnts store f hfi
        (by rw [hfp]; exact hform) (by rw [hfp]; exact hcount)]
      have hrestpre : ∀ g ∈ rest, g.initialValue = .undef ∨
          getValue initVals g.name ≠ .undef ∨
          (entitiesWithInitialAt allEnts g.name).length ≠ 1 ∨
          pathsIndependent g.name p := by
        intro g hg
        by_cases hgi : g.initialValue = StoreVal.undef
        · exact Or.inl hgi
        · by_cases hgp : g.name = p
          · exfalso
            have hmem : g ∈ rest.filter (fun f =>
                decide (f.initialValue ≠ StoreVal.undef) && decide (f.name = p)) :=
              List.mem_filter.mpr ⟨hg, by simp [hgi, hgp]⟩
            rw [hrest] at hmem
            simp at hmem
          · rcases hindep g (by simp [hg]) hgi with h | h
            · exact absurd h hgp
            · exact Or.inr (Or.inr (Or.inr h))
      rw [foldl_resetStep_preserves initVals allEnts false rest _ p hrestpre, hfp,
        getValue_setValue_same, hff0]
    · rw [List.filter_cons, if_neg hpred] at hfilter
      rw [List.foldl_cons]
      exact ih _ hfilter (fun z hz => hindep z (by simp [hz]))

theorem resetFields_single_path (st : FormState) (p : NamePath) :
    getValue ((resetFields st (some [p])).1.store) p = expectedResetValue st p := by
  simp only [resetFields, resetWithFields, List.foldl_cons, List.foldl_nil,
    List.nil_append]
  by_cases hform : getValue st.initialValues p = StoreVal.undef
  · cases hE : entitiesWithInitialAt st.fieldEntities p with
    | nil =>
      simp only [List.foldl_nil]
      rw [getValue_setValue_same]
      simp [expectedResetValue, hform, hE]
    | cons f restE =>
      have hmemf : f ∈ entitiesWithInitialAt st.fieldEntities p := by
        rw [hE]
        simp
      have hpredf := (List.mem_filter.mp hmemf).2
      have hfi : f.initialValue ≠ StoreVal.undef := by
        simp at hpredf
        exact hpredf.1
      have hfp : f.name = p := by
        simp at hpredf
        exact hpredf.2
      cases restE with
      | nil =>
        simp only [List.foldl_cons, List.foldl_nil]
        rw [resetStepStore_active st.initialValues st.fieldEntities _ f hfi
          (by rw [hfp]; exact hform) (by rw [hfp, hE]; rfl)]
        rw [hfp, getValue_setValue_same]
        simp [expectedResetValue, hform, hE]
      | cons g restE2 =>
        have hpre : ∀ f2 ∈ f :: g :: restE2, f2.initialValue = .undef ∨
            getValue st.initialValues f2.name ≠ .undef ∨
            (entitiesWithInitialAt st.fieldEntities f2.name).length ≠ 1 ∨
            pathsIndependent f2.name p := by
          intro f2 hf2
          have hmem2 : f2 ∈ entitiesWithInitialAt st.fieldEntities p := by
            rw [hE]
            exact hf2
          have hpred2 := (List.mem_filter.mp hmem2).2
          have hf2p : f2.name = p := by
            simp at hpred2
            exact hpred2.2
          refine Or.inr (Or.inr (Or.inl ?_))
          rw [hf2p, hE]
          simp
        rw [foldl_resetStep_preserves st.initialValues st.fieldEntities false
          (f :: g :: restE2) _ p hpre, getValue_setValue_same]
        simp [expectedResetValue, hform, hE]
  · have hpre : ∀ f ∈ entitiesWithInitialAt st.fieldEntities p,
        f.initialValue = .undef ∨ getValue st.initialValues f.name ≠ .undef ∨
        (entitiesWithInitialAt st.fieldEntities f.name).length ≠ 1 ∨
        pathsIndependent f.name p := by
      intro f hf
      have hpredf := (List.mem_filter.mp hf).2
      have hfp : f.name = p := by
        simp at hpredf
        exact hpredf.2
      refine Or.inr (Or.inl ?_)
      rw [hfp]
      exact hform
    rw [foldl_resetStep_preserves st.initialValues st.fieldEntities false _ _ p hpre,
      getValue_setValue_same]
    simp [expectedResetValue, hform]

theorem resetFields_whole (st : FormState) (p : NamePath)
    (hkeys : topKeysNodup st.initialValues)
    (hindep : ∀ f ∈ pureFieldEntities st.fieldEntities, f.initialValue ≠ .undef →
      f.name = p ∨ pathsIndependent f.name p) :
    getValue ((resetFields st none).1.store) p = expectedResetValue st p := by
  have hstore0 : mergeValues (.node []) st.initialValues = st.initialValues :=
    mergeValues_empty _ hkeys
  simp only [resetFields, resetWithFields]
  rw [hstore0]
  by_cases hform : getValue st.initialValues p = StoreVal.undef
  · cases hE : entitiesWithInitialAt st.fieldEntities p with
    | nil =>
      have hpre : ∀ f ∈ pureFieldEntities st.fieldEntities, f.initialValue = .undef ∨
          getValue st.initialValues f.name ≠ .undef ∨
          (entitiesWithInitialAt st.fieldEntities f.name).length ≠ 1 ∨
          pathsIndependent f.name p := by
        intro f hf
        by_cases hfi : f.initialValue = StoreVal.undef
        · exact Or.inl hfi
        · by_cases hfp : f.name = p
          · exfalso
            have hmem : f ∈ entitiesWithInitialAt st.fieldEntities p :=
              List.mem_filter.mpr ⟨hf, by simp [hfi, hfp]⟩
            rw [hE] at hmem
            simp at hmem
          · rcases hindep f hf hfi with h | h
            · exact absurd h hfp
            · exact Or.inr (Or.inr (Or.inr h))
      rw [foldl_resetStep_preserves st.initialValues st.fieldEntities false _ _ p hpre,
        hform]
      simp [expectedResetValue, hform, hE]
    | cons f restE =>
      have hmemf : f ∈ entitiesWithInitialAt st.fieldEntities p := by
        rw [hE]
        simp
      have hpredf := (List.mem_filter.mp hmemf).2
      have hfi : f.initialValue ≠ StoreVal.undef := by
        simp at hpredf
        exact hpredf.1
      have hfp : f.name = p := by
        simp at hpredf
        exact hpredf.2
      cases restE with
      | nil =>
        rw [foldl_resetStep_unique st.initialValues st.fieldEntities p f hform hfp hfi
          (by rw [hE]; rfl) (pureFieldEntities st.fieldEntities) st.initialValues hE
          hindep]
        simp [expectedResetValue, hform, hE]
      | cons g restE2 =>
        have hpre : ∀ f2 ∈ pureFieldEntities st.fieldEntities,
            f2.initialValue = .undef ∨
            getValue st.initialValues f2.name ≠ .undef ∨
            (entitiesWithInitialAt st.fieldEntities f2.name).length ≠ 1 ∨
            pathsIndependent f2.name p := by
          intro f2 hf2
          by_cases hf2i : f2.initialValue = StoreVal.undef
          · exact Or.inl hf2i
          · by_cases hf2p : f2.name = p
            · refine Or.inr (Or.inr (Or.inl ?_))
              rw [hf2p, hE]
              simp
            · rcases hindep f2 hf2 hf2i with h | h
              · exact absurd h hf2p
              · exact Or.inr (Or.inr (Or.inr h))
        rw [foldl_resetStep_preserves st.initialValues st.fieldEntities false _ _ p hpre,
          hform]
        simp [expectedResetValue, hform, hE]
  · have hpre : ∀ f ∈ pureFieldEntities st.fieldEntities, f.initialValue = .undef ∨
        getValue st.initialValues f.name ≠ .undef ∨
        (entitiesWithInitialAt st.fieldEntities f.name).length ≠ 1 ∨
        pathsIndependent f.name p := by
      intro f hf
      by_cases hfi : f.initialValue = StoreVal.undef
      · exact Or.inl hfi
      · by_cases hfp : f.name = p
        · refine Or.inr (Or.inl ?_)
          rw [hfp]
          exact hform
        · rcases hindep f hf hfi with h | h
          · exact absurd h hfp
          · exact Or.inr (Or.inr (Or.inr h))
    rw [foldl_resetStep_preserves st.initialValues st.fieldEntities false _ _ p hpre]
    simp [expectedResetValue, hform]

theorem unregister_resets_to_form_initial (st : FormState) (ent : FieldEnt)
    (preserve : Option Bool)
    (hpres : isMergedPreserve st.preserve preserve = false)
    (hname : ent.name ≠ [])
    (hnoother : ∀ g ∈ st.fieldEntities, g.id ≠ ent.id → g.name ≠ ent.name) :
    getValue ((unregisterField st ent false preserve []).1.store) ent.name =
      getValue st.initialValues ent.name := by
  have hall : (st.fieldEntities.filter (fun g => decide (g.id ≠ ent.id))).all
      (fun g => !(matchNamePath g.name ent.name)) = true := by
    rw [List.all_eq_true]
    intro g hg
    rcases List.mem_filter.mp hg with ⟨hmem, hid⟩
    have hne : g.name ≠ ent.name := hnoother g hmem (by simpa using hid)
    simp [matchNamePath, hne]
  simp only [unregisterField]
  rw [if_pos ⟨hpres, Or.inl (by trivial)⟩]
  by_cases hcur : getValue st.store ent.name = getValue st.initialValues ent.name
  · rw [if_neg]
    · simpa using hcur
    · intro hc
      exact hc.2.1 (by simpa using hcur)
  · rw [if_pos ⟨hname, by simpa using hcur, hall⟩]
    simpa using getValue_setValue_same ent.name st.store
      (getValue st.initialValues ent.name) true

theorem unregister_removes_list_slot (st : FormState) (ent : FieldEnt)
    (preserve : Option Bool) (subNamePath : NamePath)
    (hpres : isMergedPreserve st.preserve preserve = false)
    (hsub : subNamePath.length > 1)
    (hname : ent.name ≠ [])
    (hnoother : ∀ g ∈ st.fieldEntities, g.id ≠ ent.id → g.name ≠ ent.name) :
    getValue ((unregisterField st ent true preserve subNamePath).1.store) ent.name =
      .undef := by
  have hall : (st.fieldEntities.filter (fun g => decide (g.id ≠ ent.id))).all
      (fun g => !(matchNamePath g.name ent.name)) = true := by
    rw [List.all_eq_true]
    intro g hg
    rcases List.mem_filter.mp hg with ⟨hmem, hid⟩
    have hne : g.name ≠ ent.name := hnoother g hmem (by simpa using hid)
    simp [matchNamePath, hne]
  simp only [unregisterField]
  rw [if_pos ⟨hpres, Or.inr hsub⟩]
  by_cases hcur : getValue st.store ent.name = StoreVal.undef
  · rw [if_neg]
    · simpa using hcur
    · intro hc
      exact hc.2.1 (by simpa using hcur)
  · rw [if_pos ⟨hname, by simpa using hcur, hall⟩]
    simpa using getValue_setValue_same ent.name st.store StoreVal.undef true

-- ======================= claim C5 =======================

/-- Claim C5 counterexample: a field at path `a` declaring initial value
`x` while the form-level initial values hold `y` at `a`: resetting the
path yields the form-level `y`, not the field-declared `x` the claim
predicts — the form-level snapshot wins and the field declaration only
warns. -/
theorem claim_C5_counterexample :
    getValue ((resetFields
        ⟨.node [], .node [(Seg.str "a", .leaf "y")],
          [⟨0, [Seg.str "a"], [], false, .leaf "x", false, none⟩],
          none, true, false, false, none⟩
        (some [[Seg.str "a"]])).1.store) [Seg.str "a"] = .leaf "y" ∧
    StoreVal.leaf "y" ≠ StoreVal.leaf "x" := by
  constructor
  · rfl
  · decide

/-- Claim C5 (amended): resetting a path yields the form-level initial
value when one is present, else the unique field-declared initial value
for that path, else `undefined` (the same precedence governs each slot
of a whole-form reset, which also never consults the previous live
store); an unregistration-driven reset restores the form-level initial
value only, and removes the slot entirely for list fields. -/
theorem claim_C5_reset_initial_values (st : FormState) (p : NamePath) (s2 : StoreVal)
    (ent : FieldEnt) (preserve : Option Bool) (subNamePath : NamePath)
    (hkeys : topKeysNodup st.initialValues)
    (hindep : ∀ f ∈ pureFieldEntities st.fieldEntities, f.initialValue ≠ .undef →
      f.name = p ∨ pathsIndependent f.name p)
    (hpres : isMergedPreserve st.preserve preserve = false)
    (hname : ent.name ≠ [])
    (hsub : subNamePath.length > 1)
    (hnoother : ∀ g ∈ st.fieldEntities, g.id ≠ ent.id → g.name ≠ ent.name) :
    getValue ((resetFields st (some [p])).1.store) p = expectedResetValue st p ∧
    getValue ((resetFields st none).1.store) p = expectedResetValue st p ∧
    (resetFields { st with store := s2 } none).1.store =
      (resetFields st none).1.store ∧
    getValue ((unregisterField st ent false preserve []).1.store) ent.name =
      getValue st.initialValues ent.name ∧
    getValue ((unregisterField st ent true preserve subNamePath).1.store) ent.name =
      .undef := by
  refine ⟨resetFields_single_path st p, resetFields_whole st p hkeys hindep, ?_,
    unregister_resets_to_form_initial st ent preserve hpres hname hnoother,
    unregister_removes_list_slot st ent preserve subNamePath hpres hsub hname hnoother⟩
  cases st
  rfl

/-- Witness for the amended claim C5: one field at path `a` declaring
initial `x`, no form-level value: the reset installs `x`; and an
unregistration with the same entity restores the (absent) form-level
value. -/
theorem claim_C5_witness :
    getValue ((resetFields
        ⟨.node [(Seg.str "a", .leaf "z")], .node [],
          [⟨0, [Seg.str "a"], [], false, .leaf "x", false, some false⟩],
          none, true, false, false, none⟩
        (some [[Seg.str "a"]])).1.store) [Seg.str "a"] =
      expectedResetValue
        ⟨.node [(Seg.str "a", .leaf "z")], .node [],
          [⟨0, [Seg.str "a"], [], false, .leaf "x", false, some false⟩],
          none, true, false, false, none⟩ [Seg.str "a"] ∧
    getValue ((unregisterField
        ⟨.node [(Seg.str "a", .leaf "z")], .node [],
          [⟨0, [Seg.str "a"], [], false, .leaf "x", false, some false⟩],
          none, true, false, false, none⟩
        ⟨0, [Seg.str "a"], [], false, .leaf "x", false, some false⟩
        false (some false) []).1.store) [Seg.str "a"] =
      getValue (.node []) [Seg.str "a"] := by
  have h := claim_C5_reset_initial_values
    ⟨.node [(Seg.str "a", .leaf "z")], .node [],
      [⟨0, [Seg.str "a"], [], false, .leaf "x", false, some false⟩],
      none, true, false, false, none⟩
    [Seg.str "a"] (.node [])
    ⟨0, [Seg.str "a"], [], false, .leaf "x", false, some false⟩
    (some false) [Seg.str "a", Seg.num 0]
    (by simp [topKeysNodup]) (by decide) (by decide) (by decide) (by decide) (by decide)
  exact ⟨h.1, h.2.2.2.1⟩

-- ======================= cascade lemmas (claim C4) =======================

theorem fillChildren_nil (ents : List FieldEnt) (init : StoreVal) (fuel : Nat)
    (st : CascadeState) : fillChildren ents init fuel [] st = st := by
  cases fuel <;> rfl

theorem fillChildren_zero_cons (ents : List FieldEnt) (init : StoreVal)
    (h : FieldEnt) (rest : List FieldEnt) (st : CascadeState) :
    fillChildren ents init 0 (h :: rest) st =
      if h.id ∈ st.children then fillChildren ents init 0 rest st
      else if isFieldDirty init h = true ∧ h.name ≠ [] then
        fillChildren ents init 0 rest
          ⟨st.children ++ [h.id], st.childrenFields ++ [h.name]⟩
      else fillChildren ents init 0 rest ⟨st.children ++ [h.id], st.childrenFields⟩ := rfl

theorem fillChildren_succ_cons (ents : List FieldEnt) (init : StoreVal) (fuel2 : Nat)
    (h : FieldEnt) (rest : List FieldEnt) (st : CascadeState) :
    fillChildren ents init (fuel2 + 1) (h :: rest) st =
      if h.id ∈ st.children then fillChildren ents init (fuel2 + 1) rest st
      else if isFieldDirty init h = true ∧ h.name ≠ [] then
        fillChildren ents init (fuel2 + 1) rest
          (fillChildren ents init fuel2 (dependentsOf ents h.name)
            ⟨st.children ++ [h.id], st.childrenFields ++ [h.name]⟩)
      else fillChildren ents init (fuel2 + 1) rest
        ⟨st.children ++ [h.id], st.childrenFields⟩ := rfl

theorem mem_dependentsOf (ents : List FieldEnt) (t : NamePath) (f : FieldEnt) :
    f ∈ dependentsOf ents t ↔
      f ∈ ents ∧ containsNamePath f.dependencies t = true := by
  simp [dependentsOf, List.mem_filter]

theorem fieldEnt_id_inj (ents : List FieldEnt)
    (hnodup : (ents.map FieldEnt.id).Nodup) (a b : FieldEnt)
    (ha : a ∈ ents) (hb : b ∈ ents) (hid : a.id = b.id) : a = b :=
  List.inj_on_of_nodup_map hnodup ha hb hid

/-- Monotonicity: the visited set and the collected paths only grow. -/
theorem fillChildren_mono (ents : List FieldEnt) (init : StoreVal) :
    ∀ (fuel : Nat) (q : List FieldEnt) (st : CascadeState),
      st.children ⊆ (fillChildren ents init fuel q st).children ∧
      st.childrenFields ⊆ (fillChildren ents init fuel q st).childrenFields := by
  intro fuel
  induction fuel with
  | zero =>
    intro q
    induction q with
    | nil =>
      intro st
      rw [fillChildren_nil]
      exact ⟨List.Subset.refl _, List.Subset.refl _⟩
    | cons h rest ih =>
      intro st
      rw [fillChildren_zero_cons]
      by_cases hv : h.id ∈ st.children
      · rw [if_pos hv]
        exact ih st
      · rw [if_neg hv]
        by_cases hd : isFieldDirty init h = true ∧ h.name ≠ []
        · rw [if_pos hd]
          have hnext := ih ⟨st.children ++ [h.id], st.childrenFields ++ [h.name]⟩
          exact ⟨List.Subset.trans (List.subset_append_left _ _) hnext.1,
            List.Subset.trans (List.subset_append_left _ _) hnext.2⟩
        · rw [if_neg hd]
          have hnext := ih ⟨st.children ++ [h.id], st.childrenFields⟩
          exact ⟨List.Subset.trans (List.subset_append_left _ _) hnext.1, hnext.2⟩
  | succ fuel2 ihfuel =>
    intro q
    induction q with
    | nil =>
      intro st
      rw [fillChildren_nil]
      exact ⟨List.Subset.refl _, List.Subset.refl _⟩
    | cons h rest ih =>
      intro st
      rw [fillChildren_succ_cons]
      by_cases hv : h.id ∈ st.children
      · rw [if_pos hv]
        exact ih st
      · rw [if_neg hv]
        by_cases hd : isFieldDirty init h = true ∧ h.name ≠ []
        · rw [if_pos hd]
          have hdive := ihfuel (dependentsOf ents h.name)
            ⟨st.children ++ [h.id], st.childrenFields ++ [h.name]⟩
          have hcont := ih (fillChildren ents init fuel2 (dependentsOf ents h.name)
            ⟨st.children ++ [h.id], st.childrenFields ++ [h.name]⟩)
          exact ⟨List.Subset.trans (List.subset_append_left _ _)
              (List.Subset.trans hdive.1 hcont.1),
            List.Subset.trans (List.subset_append_left _ _)
              (List.Subset.trans hdive.2 hcont.2)⟩
        · rw [if_neg hd]
          have hnext := ih ⟨st.children ++ [h.id], st.childrenFields⟩
          exact ⟨List.Subset.trans (List.subset_append_left _ _) hnext.1, hnext.2⟩

/-- Every queued dependent ends up visited. -/
theorem fillChildren_visits (ents : List FieldEnt) (init : StoreVal) :
    ∀ (fuel : Nat) (q : List FieldEnt) (st : CascadeState),
      ∀ f ∈ q, f.id ∈ (fillChildren ents init fuel q st).children := by
  intro fuel
  cases fuel with
  | zero =>
    intro q
    induction q with
    | nil =>
      intro st f hf
      simp at hf
    | cons h rest ih =>
      intro st f hf
      rw [fillChildren_zero_cons]
      rcases List.mem_cons.mp hf with rfl | hfr
      · by_cases hv : f.id ∈ st.children
        · rw [if_pos hv]
          exact (fillChildren_mono ents init 0 rest st).1 hv
        · rw [if_neg hv]
          by_cases hd : isFieldDirty init f = true ∧ f.name ≠ []
          · rw [if_pos hd]
            exact (fillChildren_mono ents init 0 rest
              ⟨st.children ++ [f.id], st.childrenFields ++ [f.name]⟩).1
              (show f.id ∈ st.children ++ [f.id] by simp)
          · rw [if_neg hd]
            exact (fillChildren_mono ents init 0 rest
              ⟨st.children ++ [f.id], st.childrenFields⟩).1
              (show f.id ∈ st.children ++ [f.id] by simp)
      · by_cases hv : h.id ∈ st.children
        · rw [if_pos hv]
          exact ih st f hfr
        · rw [if_neg hv]
          by_cases hd : isFieldDirty init h = true ∧ h.name ≠ []
          · rw [if_pos hd]
            exact ih _ f hfr
          · rw [if_neg hd]
            exact ih _ f hfr
  | succ fuel2 =>
    intro q
    induction q with
    | nil =>
      intro st f hf
      simp at hf
    | cons h rest ih =>
      intro st f hf
      rw [fillChildren_succ_cons]
      rcases List.mem_cons.mp hf with rfl | hfr
      · by_cases hv : f.id ∈ st.children
        · rw [if_pos hv]
          exact (fillChildren_mono ents init (fuel2 + 1) rest st).1 hv
        · rw [if_neg hv]
          by_cases hd : isFieldDirty init f = true ∧ f.name ≠ []
          · rw [if_pos hd]
            have h1 := (fillChildren_mono ents init fuel2 (dependentsOf ents f.name)
              ⟨st.children ++ [f.id], st.childrenFields ++ [f.name]⟩).1
              (show f.id ∈ st.children ++ [f.id] by simp)
            exact (fillChildren_mono ents init (fuel2 + 1) rest
              (fillChildren ents init fuel2 (dependentsOf ents f.name)
                ⟨st.children ++ [f.id], st.childrenFields ++ [f.name]⟩)).1 h1
          · rw [if_neg hd]
            exact (fillChildren_mono ents init (fuel2 + 1) rest
              ⟨st.children ++ [f.id], st.childrenFields⟩).1
              (show f.id ∈ st.children ++ [f.id] by simp)
      · by_cases hv : h.id ∈ st.children
        · rw [if_pos hv]
          exact ih st f hfr
        · rw [if_neg hv]
          by_cases hd : isFieldDirty init h = true ∧ h.name ≠ []
          · rw [if_pos hd]
            exact ih _ f hfr
          · rw [if_neg hd]
            exact ih _ f hfr


theorem length_filter_le_filter (l : List Nat) (p q : Nat → Bool)
    (h : ∀ x ∈ l, p x = true → q x = true) :
    (l.filter p).length ≤ (l.filter q).length := by
  induction l with
  | nil => simp
  | cons a rest ih =>
    have ihr := ih (fun x hx => h x (by simp [hx]))
    by_cases hp : p a = true
    · have hq2 := h a (by simp) hp
      simp only [List.filter_cons, hp, hq2, if_pos, if_true, List.length_cons]
      omega
    · by_cases hq2 : q a = true
      · simp only [List.filter_cons, hp, hq2, if_true, if_false, Bool.false_eq_true,
          List.length_cons]
        omega
      · simp only [List.filter_cons, hp, hq2, Bool.false_eq_true, if_false]
        exact ihr

theorem unvisitedCount_anti (ents : List FieldEnt) (c1 c2 : List Nat)
    (h : c1 ⊆ c2) : unvisitedCount ents c2 ≤ unvisitedCount ents c1 := by
  apply length_filter_le_filter
  intro x _ hx
  simp only [decide_eq_true_eq] at hx ⊢
  intro hc
  exact hx (h hc)

theorem unvisitedCount_push_lt (ents : List FieldEnt) (c : List Nat) (x : Nat)
    (hx : x ∈ ents.map FieldEnt.id) (hxc : x ∉ c) :
    unvisitedCount ents (c ++ [x]) < unvisitedCount ents c := by
  unfold unvisitedCount
  revert hx
  generalize ents.map FieldEnt.id = l
  intro hx
  induction l with
  | nil => simp at hx
  | cons a rest ih =>
    by_cases hax : a = x
    · subst hax
      have h1 : (decide (a ∉ c ++ [a])) = false := by simp
      have h2 : (decide (a ∉ c)) = true := by simpa using hxc
      simp only [List.filter_cons, h1, h2, Bool.false_eq_true, if_false, if_true,
        List.length_cons]
      have hle : ((rest.filter (fun i => decide (i ∉ c ++ [a]))).length ≤
          (rest.filter (fun i => decide (i ∉ c))).length) := by
        apply length_filter_le_filter
        intro y _ hy
        simp only [decide_eq_true_eq] at hy ⊢
        intro hc
        exact hy (List.mem_append_left _ hc)
      omega
    · have heq : (decide (a ∉ c ++ [x])) = (decide (a ∉ c)) := by
        by_cases hac : a ∈ c
        · simp [hac]
        · simp [hac, hax]
      have hxr : x ∈ rest := by
        rcases List.mem_cons.mp hx with h | h
        · exact absurd h.symm hax
        · exact h
      simp only [List.filter_cons, heq]
      by_cases hac : (decide (a ∉ c)) = true
      · simp only [hac, if_true, List.length_cons]
        exact Nat.succ_lt_succ (ih hxr)
      · simp only [hac, Bool.false_eq_true, if_false]
        exact ih hxr

theorem unvisitedCount_pos (ents : List FieldEnt) (c : List Nat) (x : Nat)
    (hx : x ∈ ents.map FieldEnt.id) (hxc : x ∉ c) :
    0 < unvisitedCount ents c := by
  have hm : x ∈ (ents.map FieldEnt.id).filter (fun i => decide (i ∉ c)) :=
    List.mem_filter.mpr ⟨hx, by simpa using hxc⟩
  exact List.length_pos.mpr (List.ne_nil_of_mem hm)

theorem unvisitedCount_le_length (ents : List FieldEnt) (c : List Nat) :
    unvisitedCount ents c ≤ ents.length := by
  unfold unvisitedCount
  calc ((ents.map FieldEnt.id).filter (fun i => decide (i ∉ c))).length
      ≤ (ents.map FieldEnt.id).length := List.length_filter_le _ _
    _ = ents.length := List.length_map _ _

/-- Basic facts carried by every `Cascaded` derivation. -/
theorem cascaded_props {ents : List FieldEnt} {init : StoreVal} {root : NamePath}
    {f : FieldEnt} (h : Cascaded ents init root f) :
    f ∈ ents ∧ isFieldDirty init f = true ∧ f.name ≠ [] := by
  cases h with
  | base f hf hdep hdirty hname => exact ⟨hf, hdirty, hname⟩
  | step g f hg hf hdep hdirty hname => exact ⟨hf, hdirty, hname⟩

/-- Invariant preservation: the traversal keeps every visited dirty named
entity path collected. -/
theorem fillChildren_inv (ents : List FieldEnt) (init : StoreVal)
    (hnodup : (ents.map FieldEnt.id).Nodup) :
    ∀ (fuel : Nat) (q : List FieldEnt) (st : CascadeState),
      (∀ f ∈ q, f ∈ ents) → CascadeInv ents init st →
      CascadeInv ents init (fillChildren ents init fuel q st) := by
  intro fuel
  induction fuel with
  | zero =>
    intro q
    induction q with
    | nil =>
      intro st _ hinv
      rw [fillChildren_nil]
      exact hinv
    | cons h rest ih =>
      intro st hq hinv
      rw [fillChildren_zero_cons]
      by_cases hv : h.id ∈ st.children
      · rw [if_pos hv]
        exact ih st (fun z hz => hq z (by simp [hz])) hinv
      · rw [if_neg hv]
        by_cases hd : isFieldDirty init h = true ∧ h.name ≠ []
        · rw [if_pos hd]
          refine ih _ (fun z hz => hq z (by simp [hz])) ?_
          intro g hg hgid hgd hgn
          rcases List.mem_append.mp hgid with hgin | hgx
          · exact List.mem_append_left _ (hinv g hg hgin hgd hgn)
          · have hgid2 : g.id = h.id := by simpa using hgx
            have hgh : g = h := fieldEnt_id_inj ents hnodup g h hg (hq h (by simp)) hgid2
            rw [hgh]
            exact List.mem_append_right _ (by simp)
        · rw [if_neg hd]
          refine ih _ (fun z hz => hq z (by simp [hz])) ?_
          intro g hg hgid hgd hgn
          rcases List.mem_append.mp hgid with hgin | hgx
          · exact hinv g hg hgin hgd hgn
          · have hgid2 : g.id = h.id := by simpa using hgx
            have hgh : g = h := fieldEnt_id_inj ents hnodup g h hg (hq h (by simp)) hgid2
            rw [hgh] at hgd hgn
            exact absurd ⟨hgd, hgn⟩ hd
  | succ fuel2 ihfuel =>
    intro q
    induction q with
    | nil =>
      intro st _ hinv
      rw [fillChildren_nil]
      exact hinv
    | cons h rest ih =>
      intro st hq hinv
      rw [fillChildren_succ_cons]
      by_cases hv : h.id ∈ st.children
      · rw [if_pos hv]
        exact ih st (fun z hz => hq z (by simp [hz])) hinv
      · rw [if_neg hv]
        by_cases hd : isFieldDirty init h = true ∧ h.name ≠ []
        · rw [if_pos hd]
          refine ih _ (fun z hz => hq z (by simp [hz])) ?_
          refine ihfuel (dependentsOf ents h.name) _
            (fun z hz => ((mem_dependentsOf ents h.name z).mp hz).1) ?_
          intro g hg hgid hgd hgn
          rcases List.mem_append.mp hgid with hgin | hgx
          · exact List.mem_append_left _ (hinv g hg hgin hgd hgn)
          · have hgid2 : g.id = h.id := by simpa using hgx
            have hgh : g = h := fieldEnt_id_inj ents hnodup g h hg (hq h (by simp)) hgid2
            rw [hgh]
            exact List.mem_append_right _ (by simp)
        · rw [if_neg hd]
          refine ih _ (fun z hz => hq z (by simp [hz])) ?_
          intro g hg hgid hgd hgn
          rcases List.mem_append.mp hgid with hgin | hgx
          · exact hinv g hg hgin hgd hgn
          · have hgid2 : g.id = h.id := by simpa using hgx
            have hgh : g = h := fieldEnt_id_inj ents hnodup g h hg (hq h (by simp)) hgid2
            rw [hgh] at hgd hgn
            exact absurd ⟨hgd, hgn⟩ hd

/-- Closedness: with enough fuel, every newly visited dirty named entity
has all dependents of its path visited in the result. -/
theorem fillChildren_closed (ents : List FieldEnt) (init : StoreVal)
    (hnodup : (ents.map FieldEnt.id).Nodup) :
    ∀ (fuel : Nat) (q : List FieldEnt) (st : CascadeState),
      (∀ f ∈ q, f ∈ ents) →
      unvisitedCount ents st.children ≤ fuel →
      ∀ f ∈ ents, f.id ∈ (fillChildren ents init fuel q st).children →
        f.id ∉ st.children → isFieldDirty init f = true → f.name ≠ [] →
        ∀ g ∈ dependentsOf ents f.name,
          g.id ∈ (fillChildren ents init fuel q st).children := by
  intro fuel
  induction fuel with
  | zero =>
    intro q
    induction q with
    | nil =>
      intro st hq hcap f hf hfin hfnot hfd hfn g hg
      rw [fillChildren_nil] at hfin
      exact absurd hfin hfnot
    | cons h rest ih =>
      intro st hq hcap f hf hfin hfnot hfd hfn g hg
      by_cases hv : h.id ∈ st.children
      · rw [fillChildren_zero_cons, if_pos hv] at hfin ⊢
        exact ih st (fun z hz => hq z (by simp [hz])) hcap f hf hfin hfnot hfd hfn g hg
      · exfalso
        have hmem : h.id ∈ ents.map FieldEnt.id :=
          List.mem_map.mpr ⟨h, hq h (by simp), rfl⟩
        have := unvisitedCount_pos ents st.children h.id hmem hv
        omega
  | succ fuel2 ihfuel =>
    intro q
    induction q with
    | nil =>
      intro st hq hcap f hf hfin hfnot hfd hfn g hg
      rw [fillChildren_nil] at hfin
      exact absurd hfin hfnot
    | cons h rest ih =>
      intro st hq hcap f hf hfin hfnot hfd hfn g hg
      have hhents : h ∈ ents := hq h (by simp)
      by_cases hv : h.id ∈ st.children
      · rw [fillChildren_succ_cons, if_pos hv] at hfin ⊢
        exact ih st (fun z hz => hq z (by simp [hz])) hcap f hf hfin hfnot hfd hfn g hg
      · by_cases hd : isFieldDirty init h = true ∧ h.name ≠ []
        · rw [fillChildren_succ_cons, if_neg hv, if_pos hd] at hfin ⊢
          have hcap1 : unvisitedCount ents (st.children ++ [h.id]) ≤ fuel2 := by
            have hlt := unvisitedCount_push_lt ents st.children h.id
              (List.mem_map.mpr ⟨h, hhents, rfl⟩) hv
            omega
          have hcap2 : unvisitedCount ents
              ((fillChildren ents init fuel2 (dependentsOf ents h.name)
                ⟨st.children ++ [h.id], st.childrenFields ++ [h.name]⟩).children) ≤
              fuel2 + 1 := by
            have hmono := (fillChildren_mono ents init fuel2 (dependentsOf ents h.name)
              ⟨st.children ++ [h.id], st.childrenFields ++ [h.name]⟩).1
            have := unvisitedCount_anti ents (st.children ++ [h.id]) _ hmono
            omega
          by_cases hfh : f.id = h.id
          · have hfheq : f = h := fieldEnt_id_inj ents hnodup f h hf hhents hfh
            have hgdep : g ∈ dependentsOf ents h.name := by
              rw [← hfheq]
              exact hg
            have hgvis := fillChildren_visits ents init fuel2 (dependentsOf ents h.name)
              ⟨st.children ++ [h.id], st.childrenFields ++ [h.name]⟩ g hgdep
            exact (fillChildren_mono ents init (fuel2 + 1) rest _).1 hgvis
          · by_cases hst2 : f.id ∈ (fillChildren ents init fuel2
                (dependentsOf ents h.name)
                ⟨st.children ++ [h.id], st.childrenFields ++ [h.name]⟩).children
            · have hnot1 : f.id ∉ st.children ++ [h.id] := by
                intro hx
                rcases List.mem_append.mp hx with h1 | h2
                · exact hfnot h1
                · exact hfh (by simpa using h2)
              have hdeps := ihfuel (dependentsOf ents h.name)
                ⟨st.children ++ [h.id], st.childrenFields ++ [h.name]⟩
                (fun z hz => ((mem_dependentsOf ents h.name z).mp hz).1) hcap1
                f hf hst2 hnot1 hfd hfn g hg
              exact (fillChildren_mono ents init (fuel2 + 1) rest _).1 hdeps
            · exact ih _ (fun z hz => hq z (by simp [hz])) hcap2 f hf hfin hst2 hfd
                hfn g hg
        · rw [fillChildren_succ_cons, if_neg hv, if_neg hd] at hfin ⊢
          have hcap1 : unvisitedCount ents (st.children ++ [h.id]) ≤ fuel2 + 1 := by
            have := unvisitedCount_anti ents st.children (st.children ++ [h.id])
              (List.subset_append_left _ _)
            omega
          by_cases hfh : f.id = h.id
          · have hfheq : f = h := fieldEnt_id_inj ents hnodup f h hf hhents hfh
            rw [hfheq] at hfd hfn
            exact absurd ⟨hfd, hfn⟩ hd
          · have hnot1 : f.id ∉ st.children ++ [h.id] := by
              intro hx
              rcases List.mem_append.mp hx with h1 | h2
              · exact hfnot h1
              · exact hfh (by simpa using h2)
            exact ih _ (fun z hz => hq z (by simp [hz])) hcap1 f hf hfin hnot1 hfd hfn
              g hg

/-- Soundness: every collected path belongs to a `Cascaded` entity. -/
theorem fillChildren_sound (ents : List FieldEnt) (init : StoreVal) (root : NamePath) :
    ∀ (fuel : Nat) (q : List FieldEnt) (st : CascadeState),
      (∀ f ∈ q, f ∈ ents ∧ (containsNamePath f.dependencies root = true ∨
        ∃ g2, Cascaded ents init root g2 ∧
          containsNamePath f.dependencies g2.name = true)) →
      (∀ n ∈ st.childrenFields, ∃ f2, Cascaded ents init root f2 ∧ f2.name = n) →
      ∀ n ∈ (fillChildren ents init fuel q st).childrenFields,
        ∃ f2, Cascaded ents init root f2 ∧ f2.name = n := by
  intro fuel
  induction fuel with
  | zero =>
    intro q
    induction q with
    | nil =>
      intro st _ hst n hn
      rw [fillChildren_nil] at hn
      exact hst n hn
    | cons h rest ih =>
      intro st hq hst n hn
      rw [fillChildren_zero_cons] at hn
      by_cases hv : h.id ∈ st.children
      · rw [if_pos hv] at hn
        exact ih st (fun z hz => hq z (by simp [hz])) hst n hn
      · rw [if_neg hv] at hn
        by_cases hd : isFieldDirty init h = true ∧ h.name ≠ []
        · rw [if_pos hd] at hn
          have hcasc : Cascaded ents init root h := by
            rcases hq h (by simp) with ⟨hm, hdep | ⟨g2, hg2, hdep⟩⟩
            · exact Cascaded.base h hm hdep hd.1 hd.2
            · exact Cascaded.step g2 h hg2 hm hdep hd.1 hd.2
          refine ih _ (fun z hz => hq z (by simp [hz])) ?_ n hn
          intro n2 hn2
          rcases List.mem_append.mp hn2 with h1 | h2
          · exact hst n2 h1
          · refine ⟨h, hcasc, ?_⟩
            simp at h2
            exact h2.symm
        · rw [if_neg hd] at hn
          exact ih ⟨st.children ++ [h.id], st.childrenFields⟩
            (fun z hz => hq z (by simp [hz])) hst n hn
  | succ fuel2 ihfuel =>
    intro q
    induction q with
    | nil =>
      intro st _ hst n hn
      rw [fillChildren_nil] at hn
      exact hst n hn
    | cons h rest ih =>
      intro st hq hst n hn
      rw [fillChildren_succ_cons] at hn
      by_cases hv : h.id ∈ st.children
      · rw [if_pos hv] at hn
        exact ih st (fun z hz => hq z (by simp [hz])) hst n hn
      · rw [if_neg hv] at hn
        by_cases hd : isFieldDirty init h = true ∧ h.name ≠ [] 
        · rw [if_pos hd] at hn
          have hcasc : Cascaded ents init root h := by
            rcases hq h (by simp) with ⟨hm, hdep | ⟨g2, hg2, hdep⟩⟩
            · exact Cascaded.base h hm hdep hd.1 hd.2
            · exact Cascaded.step g2 h hg2 hm hdep hd.1 hd.2
          have hpushinv : ∀ n2 ∈ st.childrenFields ++ [h.name],
              ∃ f2, Cascaded ents init root f2 ∧ f2.name = n2 := by
            intro n2 hn2
            rcases List.mem_append.mp hn2 with h1 | h2
            · exact hst n2 h1
            · refine ⟨h, hcasc, ?_⟩
              simp at h2
              exact h2.symm
          have hdiveinv := ihfuel (dependentsOf ents h.name)
            ⟨st.children ++ [h.id], st.childrenFields ++ [h.name]⟩
            (fun z hz => ⟨((mem_dependentsOf ents h.name z).mp hz).1,
              Or.inr ⟨h, hcasc, ((mem_dependentsOf ents h.name z).mp hz).2⟩⟩)
            hpushinv
          exact ih _ (fun z hz => hq z (by simp [hz])) hdiveinv n hn
        · rw [if_neg hd] at hn
          exact ih ⟨st.children ++ [h.id], st.childrenFields⟩
            (fun z hz => hq z (by simp [hz])) hst n hn

/-- Completeness: every `Cascaded` entity gets visited by the top-level
traversal. -/
theorem cascaded_visited (st : FormState) (root : NamePath)
    (hnodup : (st.fieldEntities.map FieldEnt.id).Nodup) :
    ∀ f, Cascaded st.fieldEntities st.initialValues root f →
      f.id ∈ (fillChildren st.fieldEntities st.initialValues st.fieldEntities.length
        (dependentsOf st.fieldEntities root) ⟨[], []⟩).children := by
  intro f hf
  induction hf with
  | base f2 hf2 hdep hdirty hname =>
    exact fillChildren_visits _ _ _ _ _ f2
      ((mem_dependentsOf _ _ f2).mpr ⟨hf2, hdep⟩)
  | step g2 f2 hg2 hf2 hdep hdirty hname ihg =>
    have hprops := cascaded_props hg2
    exact fillChildren_closed st.fieldEntities st.initialValues hnodup
      st.fieldEntities.length (dependentsOf st.fieldEntities root) ⟨[], []⟩
      (fun z hz => ((mem_dependentsOf _ _ z).mp hz).1)
      (unvisitedCount_le_length _ _)
      g2 hprops.1 ihg (by simp) hprops.2.1 hprops.2.2 f2
      ((mem_dependentsOf _ _ f2).mpr ⟨hf2, hdep⟩)

-- ======================= claim C4 =======================

/-- Claim C4 counterexample: field `b` depends on `a`, has never been
touched or validated (its dirty flag is false), yet because it declares
an `initialValue` the cascade from `a` still collects it — the code
gates on `isFieldDirty`, which also accepts fields with a field- or
form-level initial value, not on touched-or-validated alone. -/
theorem claim_C4_counterexample :
    getDependencyChildrenFields
      ⟨.node [], .node [],
        [⟨0, [Seg.str "b"], [[Seg.str "a"]], false, .leaf "x", false, none⟩],
        none, true, false, false, none⟩ [Seg.str "a"] = [[Seg.str "b"]] ∧
    (⟨0, [Seg.str "b"], [[Seg.str "a"]], false, .leaf "x", false, none⟩ :
      FieldEnt).dirty = false := by
  constructor
  · rfl
  · rfl

/-- Claim C4 (amended): the dependency cascade collects exactly the
paths of the `Cascaded` closure — fields reachable from the trigger
path through declared dependencies, restricted at every step to fields
that pass `isFieldDirty` (dirty flag set by touch/validation, or a
field-declared `initialValue`, or a form-level initial value at the
path) and have a non-empty name; a field failing `isFieldDirty` is
never cascaded into. -/
theorem claim_C4_dependency_cascade (st : FormState) (root : NamePath)
    (hnodup : (st.fieldEntities.map FieldEnt.id).Nodup) (q : NamePath) :
    q ∈ getDependencyChildrenFields st root ↔
      ∃ f, Cascaded st.fieldEntities st.initialValues root f ∧ f.name = q := by
  constructor
  · intro hq
    exact fillChildren_sound st.fieldEntities st.initialValues root
      st.fieldEntities.length (dependentsOf st.fieldEntities root) ⟨[], []⟩
      (fun z hz => ⟨((mem_dependentsOf _ _ z).mp hz).1,
        Or.inl ((mem_dependentsOf _ _ z).mp hz).2⟩)
      (by intro n hn; simp at hn) q hq
  · rintro ⟨f, hc, rfl⟩
    have hprops := cascaded_props hc
    have hvis := cascaded_visited st root hnodup f hc
    have hinv := fillChildren_inv st.fieldEntities st.initialValues hnodup
      st.fieldEntities.length (dependentsOf st.fieldEntities root) ⟨[], []⟩
      (fun z hz => ((mem_dependentsOf _ _ z).mp hz).1)
      (by intro g hg hgid hgd hgn; simp at hgid)
    exact hinv f hprops.1 hvis hprops.2.1 hprops.2.2

/-- Witness for the amended claim C4: a dirty-flagged field `b`
depending on `a` is collected by the cascade from `a`. -/
theorem claim_C4_witness :
    [Seg.str "b"] ∈ getDependencyChildrenFields
      ⟨.node [], .node [],
        [⟨0, [Seg.str "b"], [[Seg.str "a"]], true, .undef, false, none⟩],
        none, true, false, false, none⟩ [Seg.str "a"] :=
  (claim_C4_dependency_cascade
    ⟨.node [], .node [],
      [⟨0, [Seg.str "b"], [[Seg.str "a"]], true, .undef, false, none⟩],
      none, true, false, false, none⟩ [Seg.str "a"] (by decide) [Seg.str "b"]).mpr
    ⟨⟨0, [Seg.str "b"], [[Seg.str "a"]], true, .undef, false, none⟩,
      Cascaded.base _ (by simp) (by decide) (by decide) (by decide), rfl⟩

end FieldForm
